import Mathlib

/-!
Verification of the QuantumTimeTravel planning core: a shallow embedding of
`graph.py` (Bellman-Ford and global negative-cycle detection), `fsm.py`
(weighted state machine), `planner.py` (the A→B→C→A cycle planner) and
`spec.py` (the multi-attribute cost aggregator), together with theorems
settling the specification's claims about them.

Python floats are modelled as rationals (`ℚ`); the `float("inf")`
unreachable sentinel is modelled as `⊤` in `WithTop ℚ`.  Python dicts are
modelled as association lists preserving insertion order.
-/

namespace QTT

/-- Weighted directed edge (`graph.py`, `Edge` dataclass): endpoints `u`, `v`
and weight `w` (a Python float, modelled as a rational). -/
structure GEdge (ν : Type) where
  u : ν
  v : ν
  w : ℚ
deriving DecidableEq, Repr

variable {ν : Type} [DecidableEq ν]

/-- State of the Bellman-Ford relaxation loops: the `dist` dictionary
(total function into `WithTop ℚ`, `⊤` standing for `float("inf")` /
an absent key read through `dict.get(..., inf)`), the `pred` dictionary,
and the `changed` flag of the current pass.  `detect_any_negative_cycle`
does not track predecessors in the source; its `pred` component here is
inert and never read. -/
structure BFState (ν : Type) where
  dist : ν → WithTop ℚ
  pred : ν → Option ν
  changed : Bool

/-- Pointwise update of a dictionary-as-function (`d[k] = v`). -/
def upd {β : Type} (f : ν → β) (a : ν) (v : β) : ν → β :=
  fun x => if x = a then v else f x

/-- One relaxation step (`if dist[e.u] + e.w < dist[e.v]: ...` in both loops
of `graph.py`). -/
def relaxEdge (e : GEdge ν) (s : BFState ν) : BFState ν :=
  if s.dist e.u + (e.w : WithTop ℚ) < s.dist e.v then
    { dist := upd s.dist e.v (s.dist e.u + (e.w : WithTop ℚ))
      pred := upd s.pred e.v (some e.u)
      changed := true }
  else s

/-- One full pass over the edge list (`for e in edges_list`), resetting the
`changed` flag first (`changed = False`). -/
def relaxPass (edges : List (GEdge ν)) (s : BFState ν) : BFState ν :=
  edges.foldl (fun t e => relaxEdge e t) { s with changed := false }

/-- The `bellman_ford` relaxation loop: up to `k` passes with the early exit
`if not changed: break`. -/
def relaxRounds (edges : List (GEdge ν)) : Nat → BFState ν → BFState ν
  | 0, s => s
  | k + 1, s =>
    let s' := relaxPass edges s
    if s'.changed then relaxRounds edges k s' else s'

/-- The `detect_any_negative_cycle` relaxation loop: exactly `k` passes,
no early exit (the source tracks no `changed` flag there). -/
def relaxRoundsAll (edges : List (GEdge ν)) : Nat → BFState ν → BFState ν
  | 0, s => s
  | k + 1, s => relaxRoundsAll edges k (relaxPass edges s)

/-- Initial state of `bellman_ford`: `dist = {n: inf for n in nodes}` then
`dist[source] = 0.0`; all predecessors `None`.  As a total function this is
`0` at `source` and `⊤` elsewhere (keys outside `nodes` are absent, i.e. `⊤`;
`source` is a key either way). -/
def bfInit (src : ν) : BFState ν :=
  { dist := fun v => if v = src then ((0 : ℚ) : WithTop ℚ) else ⊤
    pred := fun _ => none
    changed := false }

/-- `bellman_ford(nodes, edges, source)` from `graph.py`: `len(nodes)-1`
relaxation passes with early exit, then one more check pass; returns the
distance map, the predecessor map and the negative-cycle flag. -/
def bellman_ford (nodes : List ν) (edges : List (GEdge ν)) (src : ν) :
    (ν → WithTop ℚ) × (ν → Option ν) × Bool :=
  let s := relaxRounds edges (nodes.length - 1) (bfInit src)
  (s.dist, s.pred,
    edges.any fun e => decide (s.dist e.u + (e.w : WithTop ℚ) < s.dist e.v))

/-- Lifting a real edge into the node type extended with the super-source
(`object()` sentinel, modelled as `none`). -/
def liftEdge (e : GEdge ν) : GEdge (Option ν) := ⟨some e.u, some e.v, e.w⟩

/-- The edge list used by `detect_any_negative_cycle`: the real edges plus a
zero-weight edge from the super-source to every node. -/
def detectEdges (nodes : List ν) (edges : List (GEdge ν)) : List (GEdge (Option ν)) :=
  edges.map liftEdge ++ nodes.map (fun n => ⟨none, some n, 0⟩)

/-- Initial state of `detect_any_negative_cycle`:
`dist = {n: 0.0 for n in nodes}`, every other key (including the
super-source) absent, hence read as `inf` through `dist.get(..., inf)`. -/
def detectInit (nodes : List ν) : BFState (Option ν) :=
  { dist := fun v => match v with
      | some x => if x ∈ nodes then ((0 : ℚ) : WithTop ℚ) else ⊤
      | none => ⊤
    pred := fun _ => none
    changed := false }

/-- `detect_any_negative_cycle(nodes, edges)` from `graph.py`: the
super-source technique, `len(nodes)-1` full passes, then a check pass. -/
def detect_any_negative_cycle (nodes : List ν) (edges : List (GEdge ν)) : Bool :=
  let s := relaxRoundsAll (detectEdges nodes edges) (nodes.length - 1) (detectInit nodes)
  (detectEdges nodes edges).any fun e =>
    decide (s.dist e.u + (e.w : WithTop ℚ) < s.dist e.v)

/-! ### Walks

A walk is a list of edges chained head to tail; `walkWeight` is the sum of
its weights.  These are the reference notions the distance claims are
stated against. -/

/-- The edges `es` form a chain starting at `s` (each edge leaves the node
the previous edge entered). -/
def chainOk : ν → List (GEdge ν) → Prop
  | _, [] => True
  | s, e :: rest => e.u = s ∧ chainOk e.v rest

/-- Final node of a chain starting at `s`. -/
def lastNode : ν → List (GEdge ν) → ν
  | s, [] => s
  | _, e :: rest => lastNode e.v rest

/-- `es` is a walk from `s` to `t` using only edges of `edges`. -/
structure IsWalkFrom (edges : List (GEdge ν)) (s t : ν) (es : List (GEdge ν)) : Prop where
  sub : ∀ e ∈ es, e ∈ edges
  chain : chainOk s es
  ends : lastNode s es = t

/-- Total weight of a walk. -/
def walkWeight (es : List (GEdge ν)) : ℚ := (es.map (fun e => e.w)).sum

/-- No closed walk over `edges` has negative total weight.  Equivalent to
the absence of a negative cycle (a negative cycle is a negative closed
walk, and any negative closed walk contains a negative cycle). -/
def NoNegClosedWalk (edges : List (GEdge ν)) : Prop :=
  ∀ x es, es ≠ [] → IsWalkFrom edges x x es → 0 ≤ walkWeight es

/-- Reference distance: `refD edges initD k v` is the least value of
`initD x + walkWeight es` over walks `es` from any `x` to `v` with at most
`k` edges, computed by the Bellman recurrence.  With `initD` equal to `0`
at a single source and `⊤` elsewhere this is the shortest-path distance
from that source using at most `k` edges — the quantity Dijkstra's
algorithm computes on graphs with no negative edge once `k ≥ |V| - 1`. -/
def refD (edges : List (GEdge ν)) (initD : ν → WithTop ℚ) : Nat → ν → WithTop ℚ
  | 0, v => initD v
  | k + 1, v =>
    edges.foldr
      (fun e acc => if e.v = v then min (refD edges initD k e.u + (e.w : WithTop ℚ)) acc else acc)
      (refD edges initD k v)

/-! ### Association lists (Python dict model)

Python dicts preserve insertion order; updating an existing key keeps its
position, a fresh key is appended. -/

/-- `dictSet l k v`: Python `d[k] = v` on an association list. -/
def dictSet {κ β : Type} [DecidableEq κ] (l : List (κ × β)) (k : κ) (v : β) : List (κ × β) :=
  match l with
  | [] => [(k, v)]
  | (k', v') :: rest => if k' = k then (k, v) :: rest else (k', v') :: dictSet rest k v

/-- `dictGet l k`: Python `d.get(k)` on an association list. -/
def dictGet {κ β : Type} [DecidableEq κ] (l : List (κ × β)) (k : κ) : Option β :=
  match l with
  | [] => none
  | (k', v') :: rest => if k' = k then some v' else dictGet rest k

/-! ### FSM (`fsm.py`) -/

/-- A transition yielded by `FSM.transitions()`. -/
structure Transition (σ ε : Type) where
  src : σ
  event : Option ε
  dst : σ
  weight : ℚ
deriving DecidableEq, Repr

/-- `fsm.py`'s `FSM`: a state set (Python `set`, modelled as the list of its
elements), a distinguished initial state, and the nested transition dict
`(src, event) -> {dst: weight}`. -/
structure FSM (σ ε : Type) where
  states : List σ
  initial : σ
  edges : List ((σ × Option ε) × List (σ × ℚ))
deriving Repr

variable {σ ε : Type} [DecidableEq σ] [DecidableEq ε]

namespace FSM

/-- `FSM.add_transition`: raises `ValueError` unless both endpoints are
registered states; otherwise `bucket = self._edges.setdefault((src, event), {})`
followed by `bucket[dst] = float(weight)`. -/
def add_transition (f : FSM σ ε) (src dst : σ) (event : Option ε) (weight : ℚ) :
    Except String (FSM σ ε) :=
  if src ∉ f.states ∨ dst ∉ f.states then
    Except.error ("src/dst must be existing states")
  else
    Except.ok { f with edges :=
      (match dictGet f.edges (src, event) with
        | some bucket => dictSet f.edges (src, event) (dictSet bucket dst weight)
        | none => f.edges ++ [((src, event), [(dst, weight)])]) }

/-- `FSM.transitions()`: all `(src, event, dst, weight)` tuples in bucket
order. -/
def transitions (f : FSM σ ε) : List (Transition σ ε) :=
  f.edges.flatMap fun p => p.2.map fun q => ⟨p.1.1, p.1.2, q.1, q.2⟩

/-- Weight stored for a given `(src, event, dst)` triple, if any. -/
def lookupWeight (f : FSM σ ε) (src : σ) (event : Option ε) (dst : σ) : Option ℚ :=
  match dictGet f.edges (src, event) with
  | some bucket => dictGet bucket dst
  | none => none

end FSM

/-! ### Planner (`planner.py`) -/

/-- `planner.py`'s `PlanResult` dataclass. -/
structure PlanResult (σ : Type) where
  path : List σ
  cost : WithTop ℚ
  ok : Bool
  reason : String
deriving DecidableEq, Repr

/-- `_edges_from_fsm`. -/
def edges_from_fsm (f : FSM σ ε) : List (GEdge σ) :=
  (f.transitions).map fun t => ⟨t.src, t.dst, t.weight⟩

/-- Outcome of the predecessor-walking loop in `_shortest_path`.  The Python
loop needs no fuel (its `visited` set is drawn from a finite dict); here the
fuel argument bounds the iteration count, and `fuelOut` is proved
unreachable for the fuel passed by `shortest_path` whenever every
predecessor is a node. -/
inductive ReconResult (σ : Type) where
  | found : List σ → ReconResult σ
  | cycleDetected : ReconResult σ
  | fuelOut : ReconResult σ
deriving DecidableEq, Repr

/-- The reconstruction loop of `_shortest_path`: walk `pred` links from the
target, failing on a revisit; accumulates `path` (later reversed by the
caller). -/
def reconstruct (pred : σ → Option σ) : Nat → List σ → List σ → Option σ → ReconResult σ
  | _, _, path, none => ReconResult.found path
  | 0, _, _, some _ => ReconResult.fuelOut
  | fuel + 1, visited, path, some cur =>
    if cur ∈ visited then ReconResult.cycleDetected
    else reconstruct pred fuel (cur :: visited) (path ++ [cur]) (pred cur)

/-- `_shortest_path(nodes, edges, src, dst)` from `planner.py`. -/
def shortest_path (nodes : List σ) (edges : List (GEdge σ)) (src dst : σ) :
    List σ × WithTop ℚ × String :=
  let r := bellman_ford nodes edges src
  let dist := r.1
  let pred := r.2.1
  if r.2.2 then ([], ⊤, "negative cycle detected")
  else if dist dst = ⊤ then ([], ⊤, "unreachable")
  else
    match reconstruct pred (nodes.length + 2) [] [] (some dst) with
    | ReconResult.cycleDetected => ([], ⊤, "path reconstruction cycle detected")
    | ReconResult.fuelOut => ([], ⊤, "fuel exhausted")
    | ReconResult.found p =>
      let path := p.reverse
      if path ≠ [] ∧ path.head? ≠ some src then ([], ⊤, "path reconstruction failed")
      else (path, dist dst, "")

/-- `plan_cycle_ABC(fsm, A, B, C, forbid_negative_edges)` from `planner.py`. -/
def plan_cycle_ABC (f : FSM σ ε) (A B C : σ) (forbid_negative_edges : Bool := false) :
    PlanResult σ :=
  if A ∉ f.states ∨ B ∉ f.states ∨ C ∉ f.states then
    ⟨[], ⊤, false, "A/B/C not in FSM states"⟩
  else
    let edges0 := edges_from_fsm f
    let nodes := f.states
    let edges := if forbid_negative_edges then edges0.filter (fun e => 0 ≤ e.w) else edges0
    if detect_any_negative_cycle nodes edges then
      ⟨[], ⊤, false, "negative cycle exists in graph"⟩
    else
      let r1 := shortest_path nodes edges A B
      if r1.1 = [] then ⟨[], ⊤, false, "A->B planning failed: " ++ r1.2.2⟩
      else
        let r2 := shortest_path nodes edges B C
        if r2.1 = [] then ⟨[], ⊤, false, "B->C planning failed: " ++ r2.2.2⟩
        else
          let r3 := shortest_path nodes edges C A
          if r3.1 = [] then ⟨[], ⊤, false, "C->A planning failed: " ++ r3.2.2⟩
          else
            ⟨r1.1 ++ r2.1.drop 1 ++ r3.1.drop 1, r1.2.1 + r2.2.1 + r3.2.1, true, "ok"⟩

/-! ### Cost aggregator (`spec.py`)

`spec.py` works on Python floats and calls `math.sqrt` / `math.log`.  The
embedding is over `ℚ` and is parametrised by the two transcendental
functions `sqrtQ` and `logQ`; every theorem about the aggregator holds for
an arbitrary interpretation of these, so in particular for real square
root and logarithm. -/

/-- `C_M_PER_S = 299_792_458.0`. -/
def C_M_PER_S : ℚ := 299792458

/-- `spec.py`'s `AggregationPolicy` dataclass. -/
structure AggregationPolicy where
  energy_weight : ℚ
  earth_time_weight : ℚ
  crew_time_weight : ℚ
  risk_weight : ℚ
  allow_negative_edges : Bool
  strict_invariants : Bool
  energy_scale : ℚ
  infer_velocity_from_distance_and_duration : Bool
  mode : Option String
deriving DecidableEq, Repr

/-- The dataclass defaults of `AggregationPolicy`. -/
def defaultPolicy : AggregationPolicy :=
  ⟨1, 1/10, 1/5, 2, true, true, 1000000000, true, none⟩

/-- The attribute mapping consumed by `aggregate_cost_with_breakdown`:
every key the function reads, each optional (absent keys default or are
derived). -/
structure Attrs where
  energy_j : Option ℚ
  distance_m : Option ℚ
  velocity_fraction_c : Option ℚ
  mass_kg : Option ℚ
  risk_prob : Option ℚ
  duration_s : Option ℚ
  earth_departure_epoch_s : Option ℚ
  earth_arrival_epoch_s : Option ℚ
  crew_time_s : Option ℚ
  credits : Option ℚ
deriving DecidableEq, Repr

/-- The empty attribute mapping. -/
def noAttrs : Attrs := ⟨none, none, none, none, none, none, none, none, none, none⟩

/-- `_gamma(beta)` from `spec.py`: raises unless `0 ≤ beta < 1`, else
returns `1 / sqrt(1 - beta²)`. -/
def gammaFn (sqrtQ : ℚ → ℚ) (beta : ℚ) : Except String ℚ :=
  if beta < 0 ∨ 1 ≤ beta then Except.error ("velocity_fraction_c must be in [0,1)")
  else Except.ok (1 / sqrtQ (1 - beta * beta))

/-- Duration resolution (step 1 of the aggregator): explicit `duration_s`
if present, else `max(0, arrival - departure)` if both timestamps are
present, else `0`. -/
def resolvedDuration (a : Attrs) : ℚ :=
  match a.duration_s with
  | some d => d
  | none =>
    match a.earth_departure_epoch_s, a.earth_arrival_epoch_s with
    | some dep, some arr => max 0 (arr - dep)
    | _, _ => 0

/-- Velocity resolution (step 3): the explicit `velocity_fraction_c` if
present, else the clamped inference `max(0, min(distance/duration/c,
0.999999))` when enabled and both distance and duration are positive. -/
def resolvedBetaOpt (a : Attrs) (p : AggregationPolicy) : Option ℚ :=
  match a.velocity_fraction_c with
  | some b => some b
  | none =>
    if p.infer_velocity_from_distance_and_duration ∧ 0 < a.distance_m.getD 0 ∧
        0 < resolvedDuration a then
      some (max 0 (min (a.distance_m.getD 0 / resolvedDuration a / C_M_PER_S) (999999/1000000)))
    else none

/-- `beta = float(beta or 0.0)`: the resolved velocity fraction as a plain
rational. -/
def resolvedBeta (a : Attrs) (p : AggregationPolicy) : ℚ :=
  (resolvedBetaOpt a p).getD 0

/-- `(policy.mode or "").lower() == "real_world"` (lower-casing performed
character-wise, matching `str.lower` on the relevant alphabet). -/
def isRealWorld (p : AggregationPolicy) : Bool :=
  String.mk (((p.mode.getD "").data).map Char.toLower) == "real_world"

/-- The breakdown dict returned by `aggregate_cost_with_breakdown`
(`effective_weights` and `terms` sub-dicts flattened into fields). -/
structure Breakdown where
  energy_j : ℚ
  distance_m : ℚ
  velocity_fraction_c : ℚ
  gamma : ℚ
  duration_s : ℚ
  crew_time_s : ℚ
  risk_prob : ℚ
  risk_penalty : ℚ
  credits : ℚ
  eff_energy : ℚ
  eff_earth_time : ℚ
  eff_crew_time : ℚ
  eff_risk : ℚ
  energy_term : ℚ
  time_term : ℚ
  risk_term : ℚ
  warnings : List String
deriving DecidableEq, Repr

/-- The success computation of `aggregate_cost_with_breakdown` (everything
after the invariant checks and the `gamma` computation, which is passed in
as `g`): crew time, risk penalty, effective weights, the three terms, the
scalar cost (floored at `0` when negative edge weights are disallowed),
the advisory warnings and the breakdown dict. -/
def aggregateValue (logQ : ℚ → ℚ) (attrs : Attrs) (policy : AggregationPolicy) (g : ℚ) :
    ℚ × Breakdown :=
  let energy_j := attrs.energy_j.getD 0
  let distance_m := attrs.distance_m.getD 0
  let risk_prob := attrs.risk_prob.getD 0
  let duration_s := resolvedDuration attrs
  let credits := attrs.credits.getD 0
  let beta := resolvedBeta attrs policy
  let crew_time_s :=
    match attrs.crew_time_s with
    | none => if 0 < duration_s then duration_s / g else 0
    | some ct => ct
  let risk_penalty := -(logQ (max (1/10^12) (1 - min (max risk_prob 0) (999999/1000000))))
  let days := if 0 < duration_s then duration_s / 86400 else 0
  let rw := isRealWorld policy
  let et_w := if rw then policy.earth_time_weight * (1 + min days 10 * (5/100))
    else policy.earth_time_weight
  let ct_w := if rw then policy.crew_time_weight * (1 + min days 10 * (2/100))
    else policy.crew_time_weight
  let r_w := if rw then policy.risk_weight * (1 + min (max risk_prob 0) (99/100) * 2)
    else policy.risk_weight
  let energy_term := energy_j / max 1 policy.energy_scale
  let time_term := et_w * duration_s + ct_w * crew_time_s
  let risk_term := r_w * risk_penalty
  let cost := policy.energy_weight * energy_term + time_term + risk_term - credits
  let cost2 := if policy.allow_negative_edges then cost else max 0 cost
  let warnings :=
    (if 0 < distance_m ∧ 0 < duration_s ∧ 0 < beta ∧
        duration_s + 1/1000000000 < distance_m / (beta * C_M_PER_S) then
      ["duration below kinematic bound distance/velocity"] else []) ++
    (if 9/10 ≤ beta then ["high relativistic speed (beta>=0.9)"] else []) ++
    (if 0 < distance_m ∧ 0 < duration_s ∧ C_M_PER_S < distance_m / duration_s then
      ["implied superluminal average speed from distance/duration"] else []) ++
    (if 1/5 ≤ risk_prob then ["high mission risk (risk_prob>=0.2)"] else []) ++
    (if duration_s + 1/1000000000 < crew_time_s then
      ["crew_time exceeds earth-frame duration (unexpected)"] else [])
  (cost2,
    { energy_j := energy_j, distance_m := distance_m, velocity_fraction_c := beta
      gamma := g, duration_s := duration_s, crew_time_s := crew_time_s
      risk_prob := risk_prob, risk_penalty := risk_penalty, credits := credits
      eff_energy := policy.energy_weight, eff_earth_time := et_w
      eff_crew_time := ct_w, eff_risk := r_w
      energy_term := energy_term, time_term := time_term, risk_term := risk_term
      warnings := warnings })

/-- `aggregate_cost_with_breakdown(attrs, policy)` from `spec.py`, line by
line: resolve inputs, run the strict-invariant checks, resolve velocity,
re-check it, compute `gamma` and hand over to `aggregateValue` for the
success computation. -/
def aggregate_cost_with_breakdown (sqrtQ logQ : ℚ → ℚ) (attrs : Attrs)
    (policy : AggregationPolicy) : Except String (ℚ × Breakdown) :=
  let energy_j := attrs.energy_j.getD 0
  let distance_m := attrs.distance_m.getD 0
  let betaOpt := attrs.velocity_fraction_c
  let mass_kg := attrs.mass_kg.getD 0
  let risk_prob := attrs.risk_prob.getD 0
  let duration_s := resolvedDuration attrs
  if policy.strict_invariants ∧
      (energy_j < 0 ∨ distance_m < 0 ∨ mass_kg < 0 ∨ duration_s < 0) then
    Except.error ("energy_j, distance_m, mass_kg, duration_s must be >= 0")
  else if policy.strict_invariants ∧ ¬(0 ≤ risk_prob ∧ risk_prob < 1) then
    Except.error ("risk_prob must be in [0,1)")
  else if policy.strict_invariants ∧ 0 < distance_m ∧ 0 < duration_s ∧
      (match betaOpt with
        | some b => decide (0 < b ∧ 0 < b * C_M_PER_S ∧
            duration_s + 1/1000000000 < distance_m / (b * C_M_PER_S))
        | none => false) = true then
    Except.error ("duration_s violates kinematic lower bound distance/velocity")
  else
    let beta := resolvedBeta attrs policy
    if policy.strict_invariants ∧ ¬(0 ≤ beta ∧ beta < 1) then
      Except.error ("velocity_fraction_c must be in [0,1)")
    else
      (if 0 < beta then gammaFn sqrtQ beta else Except.ok 1).bind fun g =>
      Except.ok (aggregateValue logQ attrs policy g)

/-- `aggregate_cost(attrs, policy)`: the scalar component only. -/
def aggregate_cost (sqrtQ logQ : ℚ → ℚ) (attrs : Attrs) (policy : AggregationPolicy) :
    Except String ℚ :=
  (aggregate_cost_with_breakdown sqrtQ logQ attrs policy).map (fun r => r.1)

/-! ### Auxiliary notions used by the claim statements -/

instance chainOkDec : (es : List (GEdge ν)) → (s : ν) → Decidable (chainOk s es)
  | [], _ => Decidable.isTrue trivial
  | _ :: rest, _ => @instDecidableAnd _ _ _ (chainOkDec rest _)

instance isWalkFromDec (edges : List (GEdge ν)) (s t : ν) (es : List (GEdge ν)) :
    Decidable (IsWalkFrom edges s t es) :=
  decidable_of_iff ((∀ e ∈ es, e ∈ edges) ∧ chainOk s es ∧ lastNode s es = t)
    ⟨fun h => ⟨h.1, h.2.1, h.2.2⟩, fun h => ⟨h.sub, h.chain, h.ends⟩⟩

/-- `x` can be reached from `v` by following predecessor links zero or more
times. -/
inductive PredReaches (pred : ν → Option ν) : ν → ν → Prop
  | refl (v : ν) : PredReaches pred v v
  | step {v u x : ν} : pred v = some u → PredReaches pred u x → PredReaches pred v x

/-- Following predecessor links from `v` terminates at some node whose
predecessor is `none`. -/
inductive ReachesRoot (pred : ν → Option ν) : ν → Prop
  | root {v : ν} : pred v = none → ReachesRoot pred v
  | step {v u : ν} : pred v = some u → ReachesRoot pred u → ReachesRoot pred v

/-- `l` is the full predecessor chain starting at `v`: `v`, its
predecessor, and so on down to a node with no predecessor. -/
inductive IsPredChain (pred : ν → Option ν) : ν → List ν → Prop
  | single {v : ν} : pred v = none → IsPredChain pred v [v]
  | cons {v u : ν} {l : List ν} : pred v = some u → IsPredChain pred u l →
      IsPredChain pred v (v :: l)

/-- Reference shortest-path distance from `src` (what Dijkstra's algorithm
computes when no edge weight is negative): least total weight of a walk
from `src` using at most `|nodes| - 1` edges, via the Bellman recurrence
`refD`.  The theorems `dijkstraDist_le_walk` and `dijkstraDist_attained`
characterise it as the true minimum over all walks when no edge weight is
negative. -/
def dijkstraDist (nodes : List ν) (edges : List (GEdge ν)) (src : ν) (v : ν) : WithTop ℚ :=
  refD edges (fun x => if x = src then ((0 : ℚ) : WithTop ℚ) else ⊤) (nodes.length - 1) v

/-- The strict-invariant violation condition of the specification's
aggregator contract: a negative raw quantity, a risk probability outside
`[0,1)`, a resolved velocity fraction outside `[0,1)`, or an explicitly
supplied positive velocity fraction whose kinematic lower bound
`distance / (velocity_fraction × c)` exceeds the duration by more than
`1e-9`. -/
def strictViolation (attrs : Attrs) (policy : AggregationPolicy) : Prop :=
  attrs.energy_j.getD 0 < 0 ∨ attrs.distance_m.getD 0 < 0 ∨ attrs.mass_kg.getD 0 < 0 ∨
  resolvedDuration attrs < 0 ∨
  ¬(0 ≤ attrs.risk_prob.getD 0 ∧ attrs.risk_prob.getD 0 < 1) ∨
  ¬(0 ≤ resolvedBeta attrs policy ∧ resolvedBeta attrs policy < 1) ∨
  (∃ b, attrs.velocity_fraction_c = some b ∧ 0 < b ∧ 0 < attrs.distance_m.getD 0 ∧
    0 < resolvedDuration attrs ∧
    resolvedDuration attrs + 1/1000000000 < attrs.distance_m.getD 0 / (b * C_M_PER_S))

instance strictViolationDec (attrs : Attrs) (policy : AggregationPolicy) :
    Decidable (strictViolation attrs policy) := by
  unfold strictViolation
  have : Decidable (∃ b, attrs.velocity_fraction_c = some b ∧ 0 < b ∧
      0 < attrs.distance_m.getD 0 ∧ 0 < resolvedDuration attrs ∧
      resolvedDuration attrs + 1/1000000000 < attrs.distance_m.getD 0 / (b * C_M_PER_S)) := by
    cases h : attrs.velocity_fraction_c with
    | none => exact Decidable.isFalse (by simp [h])
    | some b0 =>
      refine decidable_of_iff (0 < b0 ∧ 0 < attrs.distance_m.getD 0 ∧
        0 < resolvedDuration attrs ∧
        resolvedDuration attrs + 1/1000000000 < attrs.distance_m.getD 0 / (b0 * C_M_PER_S)) ?_
      constructor
      · intro hc
        exact ⟨b0, rfl, hc.1, hc.2.1, hc.2.2.1, hc.2.2.2⟩
      · rintro ⟨b, hb, h1, h2, h3, h4⟩
        cases hb
        exact ⟨h1, h2, h3, h4⟩
  exact instDecidableOr

/-- The hypothesis-free part of the Bellman-Ford loop invariant: distances
never exceed their initial values, and every finite distance is realised
by an actual walk from some initially-finite node. -/
structure BFCore (edges : List (GEdge ν)) (initD : ν → WithTop ℚ) (s : BFState ν) : Prop where
  distLe : ∀ v, s.dist v ≤ initD v
  walk : ∀ v, s.dist v < ⊤ → ∃ x es, IsWalkFrom edges x v es ∧ initD x < ⊤ ∧
    s.dist v = initD x + (walkWeight es : WithTop ℚ)

/-- The predecessor part of the Bellman-Ford loop invariant (maintained
when the graph has no negative closed walk): every predecessor link is a
real edge satisfying the relaxed triangle inequality, predecessor chains
always terminate, only initially-finite nodes can be finite roots, and
initially-finite nodes never acquire a predecessor. -/
structure BFPred (edges : List (GEdge ν)) (initD : ν → WithTop ℚ) (s : BFState ν) : Prop where
  predEdge : ∀ v u, s.pred v = some u → ∃ w, GEdge.mk u v w ∈ edges ∧
    s.dist u + (w : WithTop ℚ) ≤ s.dist v ∧ s.dist v < ⊤
  predNone : ∀ v, s.pred v = none → s.dist v < ⊤ → initD v < ⊤
  reaches : ∀ v, ReachesRoot s.pred v
  rootsInit : ∀ v, initD v < ⊤ → s.pred v = none

/-! ### Concrete data for the scenario claim and witnesses -/

/-- The FSM of concrete scenario 1, built through `add_transition`:
states `{A, B, C}`, edges `A→B` weight `1`, `B→C` weight `2`, `C→A`
weight `3`. -/
def fsmC2 : FSM String Unit :=
  ((((FSM.mk ["A", "B", "C"] ("A") []).add_transition ("A") ("B") none 1).bind fun f =>
      f.add_transition ("B") ("C") none 2).bind fun f =>
      f.add_transition ("C") ("A") none 3).toOption.getD (FSM.mk [] ("A") [])

/-- An FSM with a negative cycle `A→B→A` of weight `-2` (the third test of
`test_planner.py`), built through `add_transition`. -/
def fsmNegCycle : FSM String Unit :=
  (((((FSM.mk ["A", "B", "C"] ("A") []).add_transition ("A") ("B") none 1).bind fun f =>
      f.add_transition ("B") ("A") none (-3)).bind fun f =>
      f.add_transition ("B") ("C") none 1).bind fun f =>
      f.add_transition ("C") ("A") none 1).toOption.getD (FSM.mk [] ("A") [])

/-- A two-state FSM with no transitions, used to exercise `add_transition`. -/
def fsmW : FSM String Unit := FSM.mk ["A", "B"] ("A") []

/-- Attributes with a risk probability of `2` (outside `[0,1)`). -/
def attrsBadRisk : Attrs := { noAttrs with risk_prob := some 2 }

/-- Attributes with an explicit superluminal velocity fraction `3/2`. -/
def attrsFast : Attrs := { noAttrs with velocity_fraction_c := some (3/2) }

/-- Attributes with an explicit negative velocity fraction `-1/2`. -/
def attrsNegBeta : Attrs := { noAttrs with velocity_fraction_c := some (-1/2) }

/-- Attributes of concrete scenario 4 of the specification. -/
def attrsScenario4 : Attrs :=
  { noAttrs with
      energy_j := some 1000000000
      duration_s := some 10
      risk_prob := some 0
      credits := some 100 }

/-- The identity function on `ℚ`, used to instantiate the transcendental
parameters of the aggregator in witnesses. -/
def idQ : ℚ → ℚ := fun x => x

/-- The default policy with strict invariant checking switched off. -/
def permissivePolicy : AggregationPolicy :=
  { defaultPolicy with strict_invariants := false }

/-- The breakdown produced for `attrsScenario4` under the default policy
(with both transcendental parameters instantiated by the identity). -/
def bdScenario4 : Breakdown :=
  ⟨1000000000, 0, 0, 1, 10, 10, 0, -1, 100, 1, 1/10, 1/5, 2, 1, 3, -2, []⟩

/-! ## Theorems

Rational arithmetic does not reduce in the kernel (`Nat.gcd` is defined by
well-founded recursion), so concrete runs of the embedded programs are
evaluated by `norm_num only` with the unfolding lemmas of the definitions
plus the following small kit for `WithTop ℚ` arithmetic. -/

theorem evalTopAdd (w : ℚ) : (⊤ : WithTop ℚ) + (w : WithTop ℚ) = ⊤ := WithTop.top_add _

theorem evalCoeAdd (a w : ℚ) : ((a : WithTop ℚ) + (w : WithTop ℚ)) = ((a + w : ℚ) : WithTop ℚ) :=
  (WithTop.coe_add a w).symm

theorem evalLtCoeCoe (a b : ℚ) : (((a : WithTop ℚ) < (b : WithTop ℚ))) = (a < b) := by simp

theorem evalLtTop (x : WithTop ℚ) : ((⊤ : WithTop ℚ) < x) = False := by simp

theorem evalCoeLtTop (a : ℚ) : ((a : WithTop ℚ) < ⊤) = True := by simp

theorem evalCoeEqTop (a : ℚ) : (((a : WithTop ℚ)) = ⊤) = False := by simp

theorem evalTopEqCoe (a : ℚ) : ((⊤ : WithTop ℚ) = ((a : ℚ) : WithTop ℚ)) = False := by simp

theorem evalTopEqTop : ((⊤ : WithTop ℚ) = (⊤ : WithTop ℚ)) = True := by simp

theorem evalCoeEqCoe (a b : ℚ) : (((a : WithTop ℚ)) = (b : WithTop ℚ)) = (a = b) := by simp

theorem fsmC2_eval :
    fsmC2 = ⟨["A", "B", "C"], "A",
      [(("A", none), [("B", 1)]), (("B", none), [("C", 2)]), (("C", none), [("A", 3)])]⟩ := by
  rfl

theorem fsmC2_edges :
    edges_from_fsm fsmC2 = [⟨"A", "B", 1⟩, ⟨"B", "C", 2⟩, ⟨"C", "A", 3⟩] := by
  rfl

theorem detectC2 :
    detect_any_negative_cycle (["A", "B", "C"] : List String)
      [⟨"A", "B", 1⟩, ⟨"B", "C", 2⟩, ⟨"C", "A", 3⟩] = false := by
  repeat
    first
    | rfl
    | simp only [shortest_path, bellman_ford, bfInit, relaxRounds, relaxPass, relaxEdge,
        reconstruct, upd, detect_any_negative_cycle, detectEdges, detectInit, liftEdge,
        relaxRoundsAll, plan_cycle_ABC,
        List.foldl_cons, List.foldl_nil, List.any_cons, List.any_nil,
        List.map_cons, List.map_nil,
        List.mem_cons, List.mem_singleton, List.not_mem_nil, List.length_cons, List.length_nil,
        List.reverse_cons, List.reverse_nil, List.cons_append, List.nil_append, List.append_nil,
        List.head?_cons, List.cons.injEq, List.cons_ne_nil, ne_eq,
        List.drop_succ_cons, List.drop_nil, List.drop_zero,
        or_false, false_or, or_true, true_or, and_true, true_and, and_false, false_and,
        not_false_eq_true, not_true, if_true, if_false,
        Bool.or_false, Bool.false_or, Bool.or_true, Bool.true_or,
        decide_True, decide_False, decide_eq_true_eq,
        String.reduceEq, reduceIte, reduceCtorEq, Option.some.injEq, Prod.mk.injEq,
        PlanResult.mk.injEq,
        evalTopAdd, evalCoeAdd, evalLtCoeCoe, evalLtTop, evalCoeLtTop, evalCoeEqTop, evalTopEqCoe,
        evalTopEqTop, evalCoeEqCoe]
    | norm_num only []

theorem spC2_AB :
    shortest_path (["A", "B", "C"] : List String)
      [⟨"A", "B", 1⟩, ⟨"B", "C", 2⟩, ⟨"C", "A", 3⟩] ("A") ("B") =
      (["A", "B"], ((1 : ℚ) : WithTop ℚ), "") := by
  repeat
    first
    | rfl
    | simp only [shortest_path, bellman_ford, bfInit, relaxRounds, relaxPass, relaxEdge,
        reconstruct, upd, detect_any_negative_cycle, detectEdges, detectInit, liftEdge,
        relaxRoundsAll, plan_cycle_ABC,
        List.foldl_cons, List.foldl_nil, List.any_cons, List.any_nil,
        List.map_cons, List.map_nil,
        List.mem_cons, List.mem_singleton, List.not_mem_nil, List.length_cons, List.length_nil,
        List.reverse_cons, List.reverse_nil, List.cons_append, List.nil_append, List.append_nil,
        List.head?_cons, List.cons.injEq, List.cons_ne_nil, ne_eq,
        List.drop_succ_cons, List.drop_nil, List.drop_zero,
        or_false, false_or, or_true, true_or, and_true, true_and, and_false, false_and,
        not_false_eq_true, not_true, if_true, if_false,
        Bool.or_false, Bool.false_or, Bool.or_true, Bool.true_or,
        decide_True, decide_False, decide_eq_true_eq,
        String.reduceEq, reduceIte, reduceCtorEq, Option.some.injEq, Prod.mk.injEq,
        PlanResult.mk.injEq,
        evalTopAdd, evalCoeAdd, evalLtCoeCoe, evalLtTop, evalCoeLtTop, evalCoeEqTop, evalTopEqCoe,
        evalTopEqTop, evalCoeEqCoe]
    | norm_num only []

theorem spC2_BC :
    shortest_path (["A", "B", "C"] : List String)
      [⟨"A", "B", 1⟩, ⟨"B", "C", 2⟩, ⟨"C", "A", 3⟩] ("B") ("C") =
      (["B", "C"], ((2 : ℚ) : WithTop ℚ), "") := by
  repeat
    first
    | rfl
    | simp only [shortest_path, bellman_ford, bfInit, relaxRounds, relaxPass, relaxEdge,
        reconstruct, upd, detect_any_negative_cycle, detectEdges, detectInit, liftEdge,
        relaxRoundsAll, plan_cycle_ABC,
        List.foldl_cons, List.foldl_nil, List.any_cons, List.any_nil,
        List.map_cons, List.map_nil,
        List.mem_cons, List.mem_singleton, List.not_mem_nil, List.length_cons, List.length_nil,
        List.reverse_cons, List.reverse_nil, List.cons_append, List.nil_append, List.append_nil,
        List.head?_cons, List.cons.injEq, List.cons_ne_nil, ne_eq,
        List.drop_succ_cons, List.drop_nil, List.drop_zero,
        or_false, false_or, or_true, true_or, and_true, true_and, and_false, false_and,
        not_false_eq_true, not_true, if_true, if_false,
        Bool.or_false, Bool.false_or, Bool.or_true, Bool.true_or,
        decide_True, decide_False, decide_eq_true_eq,
        String.reduceEq, reduceIte, reduceCtorEq, Option.some.injEq, Prod.mk.injEq,
        PlanResult.mk.injEq,
        evalTopAdd, evalCoeAdd, evalLtCoeCoe, evalLtTop, evalCoeLtTop, evalCoeEqTop, evalTopEqCoe,
        evalTopEqTop, evalCoeEqCoe]
    | norm_num only []

theorem spC2_CA :
    shortest_path (["A", "B", "C"] : List String)
      [⟨"A", "B", 1⟩, ⟨"B", "C", 2⟩, ⟨"C", "A", 3⟩] ("C") ("A") =
      (["C", "A"], ((3 : ℚ) : WithTop ℚ), "") := by
  repeat
    first
    | rfl
    | simp only [shortest_path, bellman_ford, bfInit, relaxRounds, relaxPass, relaxEdge,
        reconstruct, upd, detect_any_negative_cycle, detectEdges, detectInit, liftEdge,
        relaxRoundsAll, plan_cycle_ABC,
        List.foldl_cons, List.foldl_nil, List.any_cons, List.any_nil,
        List.map_cons, List.map_nil,
        List.mem_cons, List.mem_singleton, List.not_mem_nil, List.length_cons, List.length_nil,
        List.reverse_cons, List.reverse_nil, List.cons_append, List.nil_append, List.append_nil,
        List.head?_cons, List.cons.injEq, List.cons_ne_nil, ne_eq,
        List.drop_succ_cons, List.drop_nil, List.drop_zero,
        or_false, false_or, or_true, true_or, and_true, true_and, and_false, false_and,
        not_false_eq_true, not_true, if_true, if_false,
        Bool.or_false, Bool.false_or, Bool.or_true, Bool.true_or,
        decide_True, decide_False, decide_eq_true_eq,
        String.reduceEq, reduceIte, reduceCtorEq, Option.some.injEq, Prod.mk.injEq,
        PlanResult.mk.injEq,
        evalTopAdd, evalCoeAdd, evalLtCoeCoe, evalLtTop, evalCoeLtTop, evalCoeEqTop, evalTopEqCoe,
        evalTopEqTop, evalCoeEqCoe]
    | norm_num only []

/-- C2: for the graph with states `{A,B,C}` and edges `A→B` weight `1`,
`B→C` weight `2`, `C→A` weight `3`, `plan_cycle_ABC(fsm, A, B, C)` returns
`ok = true`, `path = [A, B, C, A]` and `cost = 6`. -/
theorem plan_cycle_concrete_scenario1 :
    plan_cycle_ABC fsmC2 ("A") ("B") ("C") false =
      ⟨["A", "B", "C", "A"], ((6 : ℚ) : WithTop ℚ), true, "ok"⟩ := by
  have hs : fsmC2.states = ["A", "B", "C"] := by rw [fsmC2_eval]
  rw [plan_cycle_ABC, hs, fsmC2_edges]
  simp only [detectC2, spC2_AB, spC2_BC, spC2_CA,
    List.mem_cons, List.mem_singleton, List.not_mem_nil, List.cons_ne_nil,
    List.drop_succ_cons, List.drop_nil, List.drop_zero,
    List.cons_append, List.nil_append, List.append_nil, ne_eq, not_true, not_false_eq_true,
    or_false, false_or, or_true, true_or, and_true, true_and, and_false, false_and,
    if_true, if_false, String.reduceEq, reduceIte, reduceCtorEq, PlanResult.mk.injEq,
    List.cons.injEq, evalCoeAdd, evalCoeEqCoe]
  norm_num only []

/-! ### Association-list (dict) lemmas -/

theorem dictGet_dictSet_self {κ β : Type} [DecidableEq κ] (l : List (κ × β)) (k : κ) (v : β) :
    dictGet (dictSet l k v) k = some v := by
  induction l with
  | nil => simp [dictSet, dictGet]
  | cons p rest ih =>
    by_cases h : p.1 = k
    · simp [dictSet, dictGet, h]
    · simp only [dictSet, dictGet, if_neg h]
      exact ih

theorem dictGet_dictSet_ne {κ β : Type} [DecidableEq κ] (l : List (κ × β)) (k k' : κ) (v : β)
    (h : k' ≠ k) : dictGet (dictSet l k v) k' = dictGet l k' := by
  induction l with
  | nil =>
    simp only [dictSet, dictGet]
    rw [if_neg (fun hh => h hh.symm)]
  | cons p rest ih =>
    by_cases hp : p.1 = k
    · subst hp
      simp [dictSet, dictGet, Ne.symm h, h]
    · simp only [dictSet, if_neg hp, dictGet]
      by_cases hp' : p.1 = k'
      · simp [hp']
      · simp only [if_neg hp']
        exact ih

theorem mem_dictSet {κ β : Type} [DecidableEq κ] (l : List (κ × β)) (k : κ) (v : β)
    (p : κ × β) (hp : p ∈ dictSet l k v) : p ∈ l ∨ p = (k, v) := by
  induction l with
  | nil => simpa [dictSet] using hp
  | cons q rest ih =>
    by_cases h : q.1 = k
    · simp only [dictSet, if_pos h] at hp
      rcases List.mem_cons.mp hp with h1 | h1
      · exact Or.inr h1
      · exact Or.inl (List.mem_cons_of_mem _ h1)
    · simp only [dictSet, if_neg h] at hp
      rcases List.mem_cons.mp hp with h1 | h1
      · exact Or.inl (h1 ▸ List.mem_cons_self _ _)
      · rcases ih h1 with h2 | h2
        · exact Or.inl (List.mem_cons_of_mem _ h2)
        · exact Or.inr h2

theorem dictGet_mem {κ β : Type} [DecidableEq κ] (l : List (κ × β)) (k : κ) (b : β)
    (h : dictGet l k = some b) : (k, b) ∈ l := by
  induction l with
  | nil => simp [dictGet] at h
  | cons q rest ih =>
    by_cases hq : q.1 = k
    · simp only [dictGet, if_pos hq] at h
      cases h
      subst hq
      exact List.mem_cons_self q rest
    · simp only [dictGet, if_neg hq] at h
      exact List.mem_cons_of_mem _ (ih h)

theorem dictGet_append {κ β : Type} [DecidableEq κ] (l₁ l₂ : List (κ × β)) (k : κ) :
    dictGet (l₁ ++ l₂) k =
      (match dictGet l₁ k with
        | some v => some v
        | none => dictGet l₂ k) := by
  induction l₁ with
  | nil => simp [dictGet]
  | cons p rest ih =>
    by_cases h : p.1 = k
    · simp [dictGet, h]
    · simpa [dictGet, h] using ih

theorem mem_transitions {σ ε : Type} [DecidableEq σ] [DecidableEq ε] (f : FSM σ ε)
    (t : Transition σ ε) :
    t ∈ f.transitions ↔ ∃ p ∈ f.edges, ∃ q ∈ p.2, t = ⟨p.1.1, p.1.2, q.1, q.2⟩ := by
  simp only [FSM.transitions, List.mem_flatMap, List.mem_map]
  constructor
  · rintro ⟨p, hp, q, hq, rfl⟩
    exact ⟨p, hp, q, hq, rfl⟩
  · rintro ⟨p, hp, q, hq, rfl⟩
    exact ⟨p, hp, q, hq, rfl⟩

/-- C7: `add_transition` rejects unregistered endpoints with an error (the
edge map is unchanged — no new FSM is produced), and on success keeps the
state set, stores the new weight under `(src, event, dst)` overwriting any
previous one, leaves every other triple untouched, and preserves the
invariant that all stored edges join registered states. -/
theorem add_transition_spec {σ ε : Type} [DecidableEq σ] [DecidableEq ε]
    (f : FSM σ ε) (src dst : σ) (ev : Option ε) (w : ℚ) :
    ((src ∉ f.states ∨ dst ∉ f.states) →
      f.add_transition src dst ev w = Except.error ("src/dst must be existing states")) ∧
    (src ∈ f.states → dst ∈ f.states →
      ∃ f', f.add_transition src dst ev w = Except.ok f' ∧
        f'.states = f.states ∧
        f'.lookupWeight src ev dst = some w ∧
        (∀ s e d, ¬(s = src ∧ e = ev ∧ d = dst) →
          f'.lookupWeight s e d = f.lookupWeight s e d) ∧
        ((∀ t ∈ f.transitions, t.src ∈ f.states ∧ t.dst ∈ f.states) →
          ∀ t ∈ f'.transitions, t.src ∈ f'.states ∧ t.dst ∈ f'.states)) := by
  constructor
  · intro h
    rw [FSM.add_transition, if_pos h]
  · intro hs hd
    have hcond : ¬(src ∉ f.states ∨ dst ∉ f.states) := by
      push_neg
      exact ⟨hs, hd⟩
    rw [FSM.add_transition, if_neg hcond]
    refine ⟨_, rfl, rfl, ?_, ?_, ?_⟩
    · -- stored weight for the written key
      cases hb : dictGet f.edges (src, ev) with
      | some bucket =>
        simp only [FSM.lookupWeight, hb, dictGet_dictSet_self]
      | none =>
        simp only [FSM.lookupWeight, hb, dictGet_append, dictGet]
        simp [dictGet]
    · -- all other triples unchanged
      intro s e d hne
      by_cases hke : (s, e) = (src, ev)
      · obtain ⟨rfl, rfl⟩ := Prod.mk.injEq .. ▸ hke
        have hdd : d ≠ dst := by
          intro hdd
          exact hne ⟨rfl, rfl, hdd⟩
        cases hb : dictGet f.edges (s, e) with
        | some bucket =>
          simp only [FSM.lookupWeight, hb, dictGet_dictSet_self,
            dictGet_dictSet_ne _ _ _ _ hdd]
        | none =>
          simp only [FSM.lookupWeight, hb, dictGet_append, dictGet, if_neg hdd]
          simp [dictGet, Ne.symm hdd]
      · cases hb : dictGet f.edges (src, ev) with
        | some bucket =>
          simp only [FSM.lookupWeight, hb, dictGet_dictSet_ne _ _ _ _ hke]
        | none =>
          have hke2 : (src, ev) ≠ (s, e) := Ne.symm hke
          simp only [FSM.lookupWeight, hb, dictGet_append, dictGet, if_neg hke2]
          cases dictGet f.edges (s, e) <;> simp [dictGet, hke2]
    · -- endpoint invariant is preserved
      intro hwf t ht
      cases hb : dictGet f.edges (src, ev) with
      | some bucket =>
        rw [mem_transitions] at ht
        simp only [hb] at ht
        obtain ⟨p, hp, q, hq, rfl⟩ := ht
        rcases mem_dictSet _ _ _ _ hp with hpold | rfl
        · exact hwf _ ((mem_transitions f _).mpr ⟨p, hpold, q, hq, rfl⟩)
        · rcases mem_dictSet _ _ _ _ hq with hqold | rfl
          · exact hwf _ ((mem_transitions f _).mpr
              ⟨((src, ev), bucket), dictGet_mem _ _ _ hb, q, hqold, rfl⟩)
          · exact ⟨hs, hd⟩
      | none =>
        rw [mem_transitions] at ht
        simp only [hb] at ht
        obtain ⟨p, hp, q, hq, rfl⟩ := ht
        rcases List.mem_append.mp hp with hpold | hpnew
        · exact hwf _ ((mem_transitions f _).mpr ⟨p, hpold, q, hq, rfl⟩)
        · rcases List.mem_singleton.mp hpnew with rfl
          rcases List.mem_singleton.mp hq with rfl
          exact ⟨hs, hd⟩

/-! ### Aggregator theorems -/

theorem aggregateValue_spec (logQ : ℚ → ℚ) (attrs : Attrs) (policy : AggregationPolicy) (g : ℚ) :
    (aggregateValue logQ attrs policy g).1 =
      (if policy.allow_negative_edges then
        policy.energy_weight *
            ((aggregateValue logQ attrs policy g).2.energy_j / max 1 policy.energy_scale) +
          (aggregateValue logQ attrs policy g).2.eff_earth_time *
            (aggregateValue logQ attrs policy g).2.duration_s +
          (aggregateValue logQ attrs policy g).2.eff_crew_time *
            (aggregateValue logQ attrs policy g).2.crew_time_s +
          (aggregateValue logQ attrs policy g).2.eff_risk *
            (aggregateValue logQ attrs policy g).2.risk_penalty -
          (aggregateValue logQ attrs policy g).2.credits
      else
        max 0 (policy.energy_weight *
            ((aggregateValue logQ attrs policy g).2.energy_j / max 1 policy.energy_scale) +
          (aggregateValue logQ attrs policy g).2.eff_earth_time *
            (aggregateValue logQ attrs policy g).2.duration_s +
          (aggregateValue logQ attrs policy g).2.eff_crew_time *
            (aggregateValue logQ attrs policy g).2.crew_time_s +
          (aggregateValue logQ attrs policy g).2.eff_risk *
            (aggregateValue logQ attrs policy g).2.risk_penalty -
          (aggregateValue logQ attrs policy g).2.credits)) ∧
    (aggregateValue logQ attrs policy g).2.energy_term =
      (aggregateValue logQ attrs policy g).2.energy_j / max 1 policy.energy_scale ∧
    (aggregateValue logQ attrs policy g).2.time_term =
      (aggregateValue logQ attrs policy g).2.eff_earth_time *
          (aggregateValue logQ attrs policy g).2.duration_s +
        (aggregateValue logQ attrs policy g).2.eff_crew_time *
          (aggregateValue logQ attrs policy g).2.crew_time_s ∧
    (aggregateValue logQ attrs policy g).2.risk_term =
      (aggregateValue logQ attrs policy g).2.eff_risk *
        (aggregateValue logQ attrs policy g).2.risk_penalty := by
  refine ⟨?_, rfl, rfl, rfl⟩
  simp only [aggregateValue]
  by_cases ha : policy.allow_negative_edges
  · rw [if_pos ha, if_pos ha]
    ring
  · rw [if_neg ha, if_neg ha]
    congr 1
    ring

/-- Any successful run of the aggregator produces exactly the value pair
computed by `aggregateValue` at some `gamma`. -/
theorem aggregate_ok_elim (sqrtQ logQ : ℚ → ℚ) (attrs : Attrs) (policy : AggregationPolicy)
    (c : ℚ) (b : Breakdown)
    (h : aggregate_cost_with_breakdown sqrtQ logQ attrs policy = Except.ok (c, b)) :
    ∃ g, (c, b) = aggregateValue logQ attrs policy g := by
  rw [aggregate_cost_with_breakdown] at h
  by_cases h1 : (policy.strict_invariants ∧
      (attrs.energy_j.getD 0 < 0 ∨ attrs.distance_m.getD 0 < 0 ∨
        attrs.mass_kg.getD 0 < 0 ∨ resolvedDuration attrs < 0))
  · rw [if_pos h1] at h
    exact absurd h (by simp)
  rw [if_neg h1] at h
  by_cases h2 : (policy.strict_invariants ∧
      ¬(0 ≤ attrs.risk_prob.getD 0 ∧ attrs.risk_prob.getD 0 < 1))
  · rw [if_pos h2] at h
    exact absurd h (by simp)
  rw [if_neg h2] at h
  by_cases h3 : (policy.strict_invariants ∧ 0 < attrs.distance_m.getD 0 ∧
      0 < resolvedDuration attrs ∧
      (match attrs.velocity_fraction_c with
        | some b => decide (0 < b ∧ 0 < b * C_M_PER_S ∧
            resolvedDuration attrs + 1/1000000000 <
              attrs.distance_m.getD 0 / (b * C_M_PER_S))
        | none => false) = true)
  · rw [if_pos h3] at h
    exact absurd h (by simp)
  rw [if_neg h3] at h
  by_cases h4 : (policy.strict_invariants ∧
      ¬(0 ≤ resolvedBeta attrs policy ∧ resolvedBeta attrs policy < 1))
  · rw [if_pos h4] at h
    exact absurd h (by simp)
  rw [if_neg h4] at h
  by_cases h5 : 0 < resolvedBeta attrs policy
  · rw [if_pos h5] at h
    rw [gammaFn] at h
    by_cases h6 : (resolvedBeta attrs policy < 0 ∨ 1 ≤ resolvedBeta attrs policy)
    · rw [if_pos h6] at h
      exact absurd h (by simp [Except.bind])
    · rw [if_neg h6] at h
      simp only [Except.bind] at h
      rw [Except.ok.injEq] at h
      exact ⟨_, h.symm⟩
  · rw [if_neg h5] at h
    simp only [Except.bind] at h
    rw [Except.ok.injEq] at h
    exact ⟨_, h.symm⟩

/-- C4: for every attribute map and policy on which the aggregator
succeeds, the returned scalar cost is
`energy_weight × (energy / max(1, energy_scale)) + eff_earth_time_weight ×
duration + eff_crew_time_weight × crew_time + eff_risk_weight ×
risk_penalty − credits` (the effective, possibly real-world-scaled time
and risk weights), floored at zero exactly when the policy disallows
negative edge weights, while the breakdown's component terms stay
unfloored. -/
theorem aggregate_cost_formula (sqrtQ logQ : ℚ → ℚ) (attrs : Attrs)
    (policy : AggregationPolicy) (c : ℚ) (b : Breakdown)
    (h : aggregate_cost_with_breakdown sqrtQ logQ attrs policy = Except.ok (c, b)) :
    c = (if policy.allow_negative_edges then
        policy.energy_weight * (b.energy_j / max 1 policy.energy_scale) +
          b.eff_earth_time * b.duration_s + b.eff_crew_time * b.crew_time_s +
          b.eff_risk * b.risk_penalty - b.credits
      else
        max 0 (policy.energy_weight * (b.energy_j / max 1 policy.energy_scale) +
          b.eff_earth_time * b.duration_s + b.eff_crew_time * b.crew_time_s +
          b.eff_risk * b.risk_penalty - b.credits)) ∧
    b.energy_term = b.energy_j / max 1 policy.energy_scale ∧
    b.time_term = b.eff_earth_time * b.duration_s + b.eff_crew_time * b.crew_time_s ∧
    b.risk_term = b.eff_risk * b.risk_penalty := by
  obtain ⟨g, hg⟩ := aggregate_ok_elim sqrtQ logQ attrs policy c b h
  have hc : c = (aggregateValue logQ attrs policy g).1 := by rw [← hg]
  have hb : b = (aggregateValue logQ attrs policy g).2 := by rw [← hg]
  subst hc
  subst hb
  exact aggregateValue_spec logQ attrs policy g

/-- C5: with `strict_invariants` enabled the aggregator fails exactly on
the strict-violation condition: a negative raw quantity, a risk
probability outside `[0,1)`, a resolved velocity fraction outside `[0,1)`,
or an explicit positive velocity fraction violating the kinematic lower
bound by more than `1e-9`. -/
theorem aggregate_strict_error_iff (sqrtQ logQ : ℚ → ℚ) (attrs : Attrs)
    (policy : AggregationPolicy) (hstrict : policy.strict_invariants = true) :
    ((aggregate_cost_with_breakdown sqrtQ logQ attrs policy).isOk = false ↔
      strictViolation attrs policy) := by
  rw [aggregate_cost_with_breakdown]
  by_cases h1 : (policy.strict_invariants ∧
      (attrs.energy_j.getD 0 < 0 ∨ attrs.distance_m.getD 0 < 0 ∨
        attrs.mass_kg.getD 0 < 0 ∨ resolvedDuration attrs < 0))
  · rw [if_pos h1]
    simp only [Except.isOk, Except.toBool, eq_self_iff_true, true_iff, strictViolation]
    rcases h1.2 with h | h | h | h
    · exact Or.inl h
    · exact Or.inr (Or.inl h)
    · exact Or.inr (Or.inr (Or.inl h))
    · exact Or.inr (Or.inr (Or.inr (Or.inl h)))
  rw [if_neg h1]
  by_cases h2 : (policy.strict_invariants ∧
      ¬(0 ≤ attrs.risk_prob.getD 0 ∧ attrs.risk_prob.getD 0 < 1))
  · rw [if_pos h2]
    simp only [Except.isOk, Except.toBool, eq_self_iff_true, true_iff, strictViolation]
    exact Or.inr (Or.inr (Or.inr (Or.inr (Or.inl h2.2))))
  rw [if_neg h2]
  by_cases h3 : (policy.strict_invariants ∧ 0 < attrs.distance_m.getD 0 ∧
      0 < resolvedDuration attrs ∧
      (match attrs.velocity_fraction_c with
        | some b => decide (0 < b ∧ 0 < b * C_M_PER_S ∧
            resolvedDuration attrs + 1/1000000000 <
              attrs.distance_m.getD 0 / (b * C_M_PER_S))
        | none => false) = true)
  · rw [if_pos h3]
    simp only [Except.isOk, Except.toBool, eq_self_iff_true, true_iff, strictViolation]
    have hm := h3.2.2.2
    cases hb : attrs.velocity_fraction_c with
    | none =>
      rw [hb] at hm
      exact absurd hm (by simp)
    | some b0 =>
      rw [hb] at hm
      have hconds := of_decide_eq_true hm
      exact Or.inr (Or.inr (Or.inr (Or.inr (Or.inr (Or.inr
        ⟨b0, rfl, hconds.1, h3.2.1, h3.2.2.1, hconds.2.2⟩)))))
  rw [if_neg h3]
  by_cases h4 : (policy.strict_invariants ∧
      ¬(0 ≤ resolvedBeta attrs policy ∧ resolvedBeta attrs policy < 1))
  · rw [if_pos h4]
    simp only [Except.isOk, Except.toBool, eq_self_iff_true, true_iff, strictViolation]
    exact Or.inr (Or.inr (Or.inr (Or.inr (Or.inr (Or.inl h4.2)))))
  rw [if_neg h4]
  have hβ : 0 ≤ resolvedBeta attrs policy ∧ resolvedBeta attrs policy < 1 := by
    by_contra hc
    exact h4 ⟨hstrict, hc⟩
  have hok : ((if 0 < resolvedBeta attrs policy then
        gammaFn sqrtQ (resolvedBeta attrs policy) else Except.ok 1).bind fun g =>
      Except.ok (aggregateValue logQ attrs policy g)).isOk = true := by
    by_cases h5 : 0 < resolvedBeta attrs policy
    · rw [if_pos h5, gammaFn,
        if_neg (not_or.mpr ⟨not_lt.mpr hβ.1, not_le.mpr hβ.2⟩)]
      simp [Except.bind, Except.isOk, Except.toBool]
    · rw [if_neg h5]
      simp [Except.bind, Except.isOk, Except.toBool]
  constructor
  · intro hf
    rw [hok] at hf
    exact absurd hf (by simp)
  · intro hsv
    exfalso
    rcases hsv with h | h | h | h | h | h | ⟨b0, hb, hbpos, hdist, hdur, hbound⟩
    · exact h1 ⟨hstrict, Or.inl h⟩
    · exact h1 ⟨hstrict, Or.inr (Or.inl h)⟩
    · exact h1 ⟨hstrict, Or.inr (Or.inr (Or.inl h))⟩
    · exact h1 ⟨hstrict, Or.inr (Or.inr (Or.inr h))⟩
    · exact h2 ⟨hstrict, h⟩
    · exact h4 ⟨hstrict, h⟩
    · refine h3 ⟨hstrict, hdist, hdur, ?_⟩
      rw [hb]
      exact decide_eq_true
        ⟨hbpos, mul_pos hbpos (by norm_num [C_M_PER_S]), hbound⟩

/-- C9: with `strict_invariants` disabled, an explicitly supplied velocity
fraction `≥ 1` still makes the aggregator fail (the relativistic-factor
computation raises), while an explicit negative velocity fraction is
accepted. -/
theorem aggregate_permissive_gamma (sqrtQ logQ : ℚ → ℚ) (attrs : Attrs)
    (policy : AggregationPolicy) (b : ℚ)
    (hstrict : policy.strict_invariants = false)
    (hb : attrs.velocity_fraction_c = some b) :
    (1 ≤ b → (aggregate_cost_with_breakdown sqrtQ logQ attrs policy).isOk = false) ∧
    (b < 0 → (aggregate_cost_with_breakdown sqrtQ logQ attrs policy).isOk = true) := by
  have hres : resolvedBeta attrs policy = b := by
    simp [resolvedBeta, resolvedBetaOpt, hb]
  rw [aggregate_cost_with_breakdown]
  rw [if_neg (by simp [hstrict]), if_neg (by simp [hstrict]), if_neg (by simp [hstrict])]
  rw [if_neg (by simp [hstrict]), hres]
  constructor
  · intro h1b
    rw [if_pos (lt_of_lt_of_le zero_lt_one h1b), gammaFn, if_pos (Or.inr h1b)]
    simp [Except.bind, Except.isOk, Except.toBool]
  · intro hneg
    rw [if_neg (not_lt.mpr hneg.le)]
    simp [Except.bind, Except.isOk, Except.toBool]

/-- C6: the planner fails with reason exactly "A/B/C not in FSM states"
when a waypoint is unregistered; otherwise (when the negative-cycle
pre-check passes) a failing leg causes failure with a reason naming the
first failing leg and embedding that leg's own reason, and the result is
`ok` exactly when all three legs succeed. -/
theorem plan_cycle_failure_semantics {σ ε : Type} [DecidableEq σ] [DecidableEq ε]
    (f : FSM σ ε) (A B C : σ) (forbid : Bool) :
    ((A ∉ f.states ∨ B ∉ f.states ∨ C ∉ f.states) →
      plan_cycle_ABC f A B C forbid = ⟨[], ⊤, false, "A/B/C not in FSM states"⟩) ∧
    (A ∈ f.states → B ∈ f.states → C ∈ f.states →
      detect_any_negative_cycle f.states (if forbid then (edges_from_fsm f).filter (fun e => 0 ≤ e.w) else edges_from_fsm f) = false →
      (((shortest_path f.states (if forbid then (edges_from_fsm f).filter (fun e => 0 ≤ e.w) else edges_from_fsm f) A B).1 = [] →
        plan_cycle_ABC f A B C forbid =
          ⟨[], ⊤, false, "A->B planning failed: " ++ (shortest_path f.states (if forbid then (edges_from_fsm f).filter (fun e => 0 ≤ e.w) else edges_from_fsm f) A B).2.2⟩) ∧
      ((shortest_path f.states (if forbid then (edges_from_fsm f).filter (fun e => 0 ≤ e.w) else edges_from_fsm f) A B).1 ≠ [] →
        (shortest_path f.states (if forbid then (edges_from_fsm f).filter (fun e => 0 ≤ e.w) else edges_from_fsm f) B C).1 = [] →
        plan_cycle_ABC f A B C forbid =
          ⟨[], ⊤, false, "B->C planning failed: " ++ (shortest_path f.states (if forbid then (edges_from_fsm f).filter (fun e => 0 ≤ e.w) else edges_from_fsm f) B C).2.2⟩) ∧
      ((shortest_path f.states (if forbid then (edges_from_fsm f).filter (fun e => 0 ≤ e.w) else edges_from_fsm f) A B).1 ≠ [] →
        (shortest_path f.states (if forbid then (edges_from_fsm f).filter (fun e => 0 ≤ e.w) else edges_from_fsm f) B C).1 ≠ [] →
        (shortest_path f.states (if forbid then (edges_from_fsm f).filter (fun e => 0 ≤ e.w) else edges_from_fsm f) C A).1 = [] →
        plan_cycle_ABC f A B C forbid =
          ⟨[], ⊤, false, "C->A planning failed: " ++ (shortest_path f.states (if forbid then (edges_from_fsm f).filter (fun e => 0 ≤ e.w) else edges_from_fsm f) C A).2.2⟩) ∧
      ((plan_cycle_ABC f A B C forbid).ok = true ↔
        (shortest_path f.states (if forbid then (edges_from_fsm f).filter (fun e => 0 ≤ e.w) else edges_from_fsm f) A B).1 ≠ [] ∧
        (shortest_path f.states (if forbid then (edges_from_fsm f).filter (fun e => 0 ≤ e.w) else edges_from_fsm f) B C).1 ≠ [] ∧
        (shortest_path f.states (if forbid then (edges_from_fsm f).filter (fun e => 0 ≤ e.w) else edges_from_fsm f) C A).1 ≠ []))) ∧
    ((plan_cycle_ABC f A B C forbid).ok = true →
      A ∈ f.states ∧ B ∈ f.states ∧ C ∈ f.states ∧
        detect_any_negative_cycle f.states (if forbid then (edges_from_fsm f).filter (fun e => 0 ≤ e.w) else edges_from_fsm f) = false) := by
  refine ⟨?_, ?_, ?_⟩
  · intro hm
    rw [plan_cycle_ABC, if_pos hm]
  · intro hA hB hC hdet
    have hm : ¬(A ∉ f.states ∨ B ∉ f.states ∨ C ∉ f.states) := by
      push_neg
      exact ⟨hA, hB, hC⟩
    simp only [plan_cycle_ABC]
    rw [if_neg hm, hdet]
    simp only [Bool.false_eq_true, if_false]
    by_cases e1 : (shortest_path f.states (if forbid then (edges_from_fsm f).filter (fun e => 0 ≤ e.w) else edges_from_fsm f) A B).1 = []
    · rw [if_pos e1]
      refine ⟨fun _ => rfl, fun he1 => absurd e1 he1, fun he1 => absurd e1 he1, ?_⟩
      simp [e1]
    rw [if_neg e1]
    by_cases e2 : (shortest_path f.states (if forbid then (edges_from_fsm f).filter (fun e => 0 ≤ e.w) else edges_from_fsm f) B C).1 = []
    · rw [if_pos e2]
      refine ⟨fun he => absurd he e1, fun _ _ => rfl, fun _ he2 => absurd e2 he2, ?_⟩
      simp [e2]
    rw [if_neg e2]
    by_cases e3 : (shortest_path f.states (if forbid then (edges_from_fsm f).filter (fun e => 0 ≤ e.w) else edges_from_fsm f) C A).1 = []
    · rw [if_pos e3]
      refine ⟨fun he => absurd he e1, fun _ he => absurd he e2, fun _ _ _ => rfl, ?_⟩
      simp [e3]
    rw [if_neg e3]
    refine ⟨fun he => absurd he e1, fun _ he => absurd he e2, fun _ _ he => absurd he e3, ?_⟩
    simp [e1, e2, e3]
  · intro hok
    by_cases hm : (A ∉ f.states ∨ B ∉ f.states ∨ C ∉ f.states)
    · rw [plan_cycle_ABC, if_pos hm] at hok
      exact absurd hok (by simp)
    push_neg at hm
    refine ⟨hm.1, hm.2.1, hm.2.2, ?_⟩
    by_cases hdet : detect_any_negative_cycle f.states (if forbid then (edges_from_fsm f).filter (fun e => 0 ≤ e.w) else edges_from_fsm f) = true
    · simp only [plan_cycle_ABC] at hok
      rw [if_neg (by push_neg; exact hm), hdet] at hok
      simp at hok
    · simpa using hdet


theorem add_transition_spec_witness :
    (("A" : String) ∈ fsmW.states ∧ ("B" : String) ∈ fsmW.states) ∧
    (∃ f', fsmW.add_transition ("A") ("B") none 5 = Except.ok f' ∧
      f'.states = fsmW.states ∧
      f'.lookupWeight ("A") none ("B") = some 5 ∧
      (∀ s e d, ¬(s = ("A" : String) ∧ e = (none : Option Unit) ∧ d = ("B" : String)) →
        f'.lookupWeight s e d = fsmW.lookupWeight s e d) ∧
      ((∀ t ∈ fsmW.transitions, t.src ∈ fsmW.states ∧ t.dst ∈ fsmW.states) →
        ∀ t ∈ f'.transitions, t.src ∈ f'.states ∧ t.dst ∈ f'.states)) :=
  ⟨⟨by decide, by decide⟩,
    (add_transition_spec fsmW ("A") ("B") none 5).2 (by decide) (by decide)⟩

theorem aggregate_strict_error_iff_witness :
    defaultPolicy.strict_invariants = true ∧
    (aggregate_cost_with_breakdown idQ idQ attrsBadRisk defaultPolicy).isOk = false := by
  have hsv : strictViolation attrsBadRisk defaultPolicy :=
    Or.inr (Or.inr (Or.inr (Or.inr (Or.inl (by norm_num [attrsBadRisk, noAttrs])))))
  exact ⟨rfl, (aggregate_strict_error_iff idQ idQ attrsBadRisk defaultPolicy rfl).mpr hsv⟩

theorem aggregate_permissive_gamma_witness :
    permissivePolicy.strict_invariants = false ∧
    attrsFast.velocity_fraction_c = some (3/2) ∧
    attrsNegBeta.velocity_fraction_c = some (-1/2) ∧
    (aggregate_cost_with_breakdown idQ idQ attrsFast permissivePolicy).isOk = false ∧
    (aggregate_cost_with_breakdown idQ idQ attrsNegBeta permissivePolicy).isOk = true := by
  refine ⟨rfl, rfl, rfl, ?_, ?_⟩
  · exact (aggregate_permissive_gamma idQ idQ attrsFast permissivePolicy (3/2)
      rfl rfl).1 (by norm_num)
  · exact (aggregate_permissive_gamma idQ idQ attrsNegBeta permissivePolicy (-1/2)
      rfl rfl).2 (by norm_num)

theorem plan_cycle_failure_semantics_witness :
    (("D" : String) ∉ fsmC2.states ∨ ("B" : String) ∉ fsmC2.states ∨
      ("C" : String) ∉ fsmC2.states) ∧
    plan_cycle_ABC fsmC2 ("D") ("B") ("C") false =
      ⟨[], ⊤, false, "A/B/C not in FSM states"⟩ := by
  have hm : ("D" : String) ∉ fsmC2.states ∨ ("B" : String) ∉ fsmC2.states ∨
      ("C" : String) ∉ fsmC2.states := Or.inl (by decide)
  exact ⟨hm, (plan_cycle_failure_semantics fsmC2 ("D") ("B") ("C") false).1 hm⟩

theorem aggregate_cost_formula_witness :
    aggregate_cost_with_breakdown idQ idQ attrsScenario4 defaultPolicy =
      Except.ok (-98, bdScenario4) ∧
    (-98 : ℚ) = (if defaultPolicy.allow_negative_edges then
        defaultPolicy.energy_weight * (bdScenario4.energy_j / max 1 defaultPolicy.energy_scale) +
          bdScenario4.eff_earth_time * bdScenario4.duration_s +
          bdScenario4.eff_crew_time * bdScenario4.crew_time_s +
          bdScenario4.eff_risk * bdScenario4.risk_penalty - bdScenario4.credits
      else
        max 0 (defaultPolicy.energy_weight *
            (bdScenario4.energy_j / max 1 defaultPolicy.energy_scale) +
          bdScenario4.eff_earth_time * bdScenario4.duration_s +
          bdScenario4.eff_crew_time * bdScenario4.crew_time_s +
          bdScenario4.eff_risk * bdScenario4.risk_penalty - bdScenario4.credits)) := by
  have h : aggregate_cost_with_breakdown idQ idQ attrsScenario4 defaultPolicy =
      Except.ok (-98, bdScenario4) := by
    repeat
      first
      | rfl
      | (simp only [aggregate_cost_with_breakdown, aggregateValue, attrsScenario4,
          noAttrs, bdScenario4, resolvedDuration, resolvedBeta, resolvedBetaOpt, idQ, gammaFn,
          C_M_PER_S, Except.bind, Option.getD, max_def, min_def,
          show isRealWorld defaultPolicy = false from rfl,
          show defaultPolicy.energy_weight = 1 from rfl,
          show defaultPolicy.earth_time_weight = 1/10 from rfl,
          show defaultPolicy.crew_time_weight = 1/5 from rfl,
          show defaultPolicy.risk_weight = 2 from rfl,
          show defaultPolicy.allow_negative_edges = true from rfl,
          show defaultPolicy.strict_invariants = true from rfl,
          show defaultPolicy.energy_scale = 1000000000 from rfl,
          show defaultPolicy.infer_velocity_from_distance_and_duration = true from rfl,
          or_false, false_or, or_true, true_or, and_true, true_and, and_false, false_and,
          not_false_eq_true, not_true, if_true, if_false, ne_eq,
          decide_True, decide_False, decide_eq_true_eq,
          reduceIte, reduceCtorEq, Option.some.injEq, Prod.mk.injEq, Except.ok.injEq,
          Breakdown.mk.injEq, List.cons_append, List.nil_append, List.append_nil])
      | norm_num only []
  exact ⟨h, (aggregate_cost_formula idQ idQ attrsScenario4 defaultPolicy (-98) bdScenario4 h).1⟩


/-! ### Basic relaxation lemmas -/

theorem upd_same {β : Type} (f : ν → β) (a : ν) (v : β) : upd f a v a = v := by
  simp [upd]

theorem upd_ne {β : Type} (f : ν → β) (a x : ν) (v : β) (h : x ≠ a) : upd f a v x = f x := by
  simp [upd, h]

theorem relaxEdge_dist_le (e : GEdge ν) (s : BFState ν) (v : ν) :
    (relaxEdge e s).dist v ≤ s.dist v := by
  rw [relaxEdge]
  split_ifs with hc
  · by_cases hv : v = e.v
    · subst hv
      simp only [upd_same]
      exact hc.le
    · simp only [upd_ne _ _ _ _ hv]
      exact le_refl _
  · exact le_refl _

theorem relaxFold_dist_le (l : List (GEdge ν)) (s : BFState ν) (v : ν) :
    (l.foldl (fun t e => relaxEdge e t) s).dist v ≤ s.dist v := by
  induction l generalizing s with
  | nil => exact le_refl _
  | cons e rest ih =>
    simp only [List.foldl_cons]
    exact le_trans (ih (relaxEdge e s)) (relaxEdge_dist_le e s v)

theorem relaxPass_dist_le (edges : List (GEdge ν)) (s : BFState ν) (v : ν) :
    (relaxPass edges s).dist v ≤ s.dist v :=
  relaxFold_dist_le edges _ v

theorem relaxEdge_changed_mono (e : GEdge ν) (s : BFState ν) (h : s.changed = true) :
    (relaxEdge e s).changed = true := by
  rw [relaxEdge]
  split_ifs <;> simp [h]

theorem relaxFold_changed_mono (l : List (GEdge ν)) (s : BFState ν) (h : s.changed = true) :
    (l.foldl (fun t e => relaxEdge e t) s).changed = true := by
  induction l generalizing s with
  | nil => exact h
  | cons e rest ih =>
    simp only [List.foldl_cons]
    exact ih _ (relaxEdge_changed_mono e s h)

/-- A pass that reports no change did not change the distances and found
no relaxable edge. -/
theorem relaxFold_no_change (l : List (GEdge ν)) (s : BFState ν)
    (h : (l.foldl (fun t e => relaxEdge e t) s).changed = false) :
    (l.foldl (fun t e => relaxEdge e t) s).dist = s.dist ∧
      (l.foldl (fun t e => relaxEdge e t) s).pred = s.pred ∧
      ∀ e ∈ l, ¬(s.dist e.u + (e.w : WithTop ℚ) < s.dist e.v) := by
  induction l generalizing s with
  | nil => exact ⟨rfl, rfl, by simp⟩
  | cons e rest ih =>
    simp only [List.foldl_cons] at h ⊢
    by_cases hc : s.dist e.u + (e.w : WithTop ℚ) < s.dist e.v
    · exfalso
      have : (relaxEdge e s).changed = true := by
        rw [relaxEdge, if_pos hc]
      rw [relaxFold_changed_mono rest _ this] at h
      exact Bool.true_eq_false ▸ h
    · have he : relaxEdge e s = s := by
        rw [relaxEdge, if_neg hc]
      rw [he] at h ⊢
      obtain ⟨h1, h2, h3⟩ := ih s h
      exact ⟨h1, h2, fun e' he' => by
        rcases List.mem_cons.mp he' with rfl | hmem
        · exact hc
        · exact h3 e' hmem⟩

theorem relaxPass_no_change (edges : List (GEdge ν)) (s : BFState ν)
    (h : (relaxPass edges s).changed = false) :
    (relaxPass edges s).dist = s.dist ∧ (relaxPass edges s).pred = s.pred ∧
      ∀ e ∈ edges, ¬(s.dist e.u + (e.w : WithTop ℚ) < s.dist e.v) := by
  have := relaxFold_no_change edges { s with changed := false } h
  exact this

/-- Processing an edge bounds the final distance of its target. -/
theorem relaxFold_le_edge (l : List (GEdge ν)) (s : BFState ν) (e : GEdge ν) (he : e ∈ l) :
    (l.foldl (fun t e => relaxEdge e t) s).dist e.v ≤ s.dist e.u + (e.w : WithTop ℚ) := by
  induction l generalizing s with
  | nil => exact absurd he (List.not_mem_nil e)
  | cons e' rest ih =>
    simp only [List.foldl_cons]
    rcases List.mem_cons.mp he with rfl | hmem
    · have h1 : (relaxEdge e s).dist e.v ≤ s.dist e.u + (e.w : WithTop ℚ) := by
        rw [relaxEdge]
        split_ifs with hc
        · simp only [upd_same]
          exact le_refl _
        · exact not_lt.mp hc
      exact le_trans (relaxFold_dist_le rest _ e.v) h1
    · have h2 : (relaxEdge e' s).dist e.u + (e.w : WithTop ℚ) ≤
          s.dist e.u + (e.w : WithTop ℚ) :=
        add_le_add_right (relaxEdge_dist_le e' s e.u) _
      exact le_trans (ih _ hmem) h2

/-! ### Reference distance lemmas -/

theorem foldr_refD_le_base (l : List (GEdge ν)) (f : GEdge ν → WithTop ℚ)
    (base : WithTop ℚ) (v : ν) :
    (l.foldr (fun e acc => if e.v = v then min (f e) acc else acc) base) ≤ base := by
  induction l with
  | nil => exact le_refl _
  | cons e rest ih =>
    simp only [List.foldr_cons]
    split_ifs
    · exact le_trans (min_le_right _ _) ih
    · exact ih

theorem foldr_refD_le_f (l : List (GEdge ν)) (f : GEdge ν → WithTop ℚ)
    (base : WithTop ℚ) (v : ν) (e : GEdge ν) (he : e ∈ l) (hev : e.v = v) :
    (l.foldr (fun e acc => if e.v = v then min (f e) acc else acc) base) ≤ f e := by
  induction l with
  | nil => exact absurd he (List.not_mem_nil e)
  | cons e' rest ih =>
    simp only [List.foldr_cons]
    rcases List.mem_cons.mp he with rfl | hmem
    · rw [if_pos hev]
      exact min_le_left _ _
    · split_ifs
      · exact le_trans (min_le_right _ _) (ih hmem)
      · exact ih hmem

theorem le_foldr_refD (l : List (GEdge ν)) (f : GEdge ν → WithTop ℚ)
    (base : WithTop ℚ) (v : ν) (x : WithTop ℚ) (hb : x ≤ base)
    (hf : ∀ e ∈ l, e.v = v → x ≤ f e) :
    x ≤ (l.foldr (fun e acc => if e.v = v then min (f e) acc else acc) base) := by
  induction l with
  | nil => exact hb
  | cons e rest ih =>
    simp only [List.foldr_cons]
    split_ifs with hev
    · exact le_min (hf e (List.mem_cons_self e rest) hev)
        (ih fun e' he' hv => hf e' (List.mem_cons_of_mem _ he') hv)
    · exact ih fun e' he' hv => hf e' (List.mem_cons_of_mem _ he') hv

theorem foldr_refD_attained (l : List (GEdge ν)) (f : GEdge ν → WithTop ℚ)
    (base : WithTop ℚ) (v : ν) :
    (l.foldr (fun e acc => if e.v = v then min (f e) acc else acc) base) = base ∨
      ∃ e ∈ l, e.v = v ∧
        (l.foldr (fun e acc => if e.v = v then min (f e) acc else acc) base) = f e := by
  induction l with
  | nil => exact Or.inl rfl
  | cons e rest ih =>
    simp only [List.foldr_cons]
    split_ifs with hev
    · rcases min_cases (f e) (rest.foldr (fun e acc => if e.v = v then min (f e) acc else acc) base) with
        ⟨hmin, _⟩ | ⟨hmin, _⟩
      · exact Or.inr ⟨e, List.mem_cons_self e rest, hev, hmin⟩
      · rw [hmin]
        rcases ih with h | ⟨e', he', hv', heq⟩
        · exact Or.inl h
        · exact Or.inr ⟨e', List.mem_cons_of_mem _ he', hv', heq⟩
    · rcases ih with h | ⟨e', he', hv', heq⟩
      · exact Or.inl h
      · exact Or.inr ⟨e', List.mem_cons_of_mem _ he', hv', heq⟩

theorem refD_succ_le (edges : List (GEdge ν)) (initD : ν → WithTop ℚ) (k : Nat) (v : ν) :
    refD edges initD (k + 1) v ≤ refD edges initD k v := by
  rw [refD]
  exact foldr_refD_le_base _ _ _ _

theorem refD_antitone (edges : List (GEdge ν)) (initD : ν → WithTop ℚ) {j k : Nat}
    (h : j ≤ k) (v : ν) : refD edges initD k v ≤ refD edges initD j v := by
  induction k with
  | zero =>
    rw [Nat.le_zero.mp h]
  | succ n ih =>
    rcases Nat.lt_or_ge j (n + 1) with hj | hj
    · exact le_trans (refD_succ_le edges initD n v) (ih (Nat.lt_succ_iff.mp hj))
    · rw [Nat.le_antisymm h hj]

theorem refD_le_init (edges : List (GEdge ν)) (initD : ν → WithTop ℚ) (k : Nat) (v : ν) :
    refD edges initD k v ≤ initD v :=
  refD_antitone edges initD (Nat.zero_le k) v

theorem refD_le_edge (edges : List (GEdge ν)) (initD : ν → WithTop ℚ) (k : Nat)
    (e : GEdge ν) (he : e ∈ edges) :
    refD edges initD (k + 1) e.v ≤ refD edges initD k e.u + (e.w : WithTop ℚ) := by
  rw [refD]
  exact foldr_refD_le_f _ _ _ _ e he rfl

/-! ### Upper bound: the computed distances are at most the reference
distances -/

theorem relaxPass_le_refD (edges : List (GEdge ν)) (initD : ν → WithTop ℚ) (j : Nat)
    (s : BFState ν) (hs : ∀ v, s.dist v ≤ refD edges initD j v) (v : ν) :
    (relaxPass edges s).dist v ≤ refD edges initD (j + 1) v := by
  rw [refD]
  refine le_foldr_refD _ _ _ _ _ (le_trans (relaxPass_dist_le edges s v) (hs v)) ?_
  intro e he hev
  subst hev
  exact le_trans (relaxFold_le_edge edges _ e he)
    (add_le_add_right (hs e.u) _)

theorem fixpoint_le_refD (edges : List (GEdge ν)) (initD : ν → WithTop ℚ) (j : Nat)
    (d : ν → WithTop ℚ)
    (hfix : ∀ e ∈ edges, ¬(d e.u + (e.w : WithTop ℚ) < d e.v))
    (hj : ∀ v, d v ≤ refD edges initD j v) (k : Nat) :
    ∀ v, d v ≤ refD edges initD (j + k) v := by
  induction k with
  | zero => exact hj
  | succ n ih =>
    intro v
    rw [show j + (n + 1) = (j + n) + 1 from rfl, refD]
    refine le_foldr_refD _ _ _ _ _ (ih v) ?_
    intro e he hev
    subst hev
    exact le_trans (not_lt.mp (hfix e he)) (add_le_add_right (ih e.u) _)

theorem relaxRounds_le_refD (edges : List (GEdge ν)) (initD : ν → WithTop ℚ) (k : Nat)
    (s : BFState ν) (j : Nat) (hs : ∀ v, s.dist v ≤ refD edges initD j v) :
    ∀ v, (relaxRounds edges k s).dist v ≤ refD edges initD (j + k) v := by
  induction k generalizing s j with
  | zero => exact hs
  | succ n ih =>
    intro v
    simp only [relaxRounds]
    by_cases hch : (relaxPass edges s).changed = true
    · rw [if_pos hch]
      have := ih (relaxPass edges s) (j + 1) (relaxPass_le_refD edges initD j s hs) v
      rw [show j + 1 + n = j + (n + 1) from by omega] at this
      exact this
    · rw [if_neg hch]
      rw [Bool.not_eq_true] at hch
      obtain ⟨hd, _, hfix⟩ := relaxPass_no_change edges s hch
      rw [hd]
      exact fixpoint_le_refD edges initD j s.dist hfix hs (n + 1) v

theorem relaxRoundsAll_le_refD (edges : List (GEdge ν)) (initD : ν → WithTop ℚ) (k : Nat)
    (s : BFState ν) (j : Nat) (hs : ∀ v, s.dist v ≤ refD edges initD j v) :
    ∀ v, (relaxRoundsAll edges k s).dist v ≤ refD edges initD (j + k) v := by
  induction k generalizing s j with
  | zero => exact hs
  | succ n ih =>
    intro v
    rw [relaxRoundsAll]
    have := ih (relaxPass edges s) (j + 1) (relaxPass_le_refD edges initD j s hs) v
    rw [show j + 1 + n = j + (n + 1) from by omega] at this
    exact this

/-! ### Walk lemmas -/

theorem chainOk_append (s : ν) (es₁ es₂ : List (GEdge ν)) :
    chainOk s (es₁ ++ es₂) ↔ chainOk s es₁ ∧ chainOk (lastNode s es₁) es₂ := by
  induction es₁ generalizing s with
  | nil => simp [chainOk, lastNode]
  | cons e rest ih =>
    show e.u = s ∧ chainOk e.v (rest ++ es₂) ↔
      (e.u = s ∧ chainOk e.v rest) ∧ chainOk (lastNode e.v rest) es₂
    rw [ih e.v, and_assoc]

theorem lastNode_append (s : ν) (es₁ es₂ : List (GEdge ν)) :
    lastNode s (es₁ ++ es₂) = lastNode (lastNode s es₁) es₂ := by
  induction es₁ generalizing s with
  | nil => rfl
  | cons e rest ih =>
    show lastNode e.v (rest ++ es₂) = lastNode (lastNode e.v rest) es₂
    exact ih e.v

theorem walkWeight_append (es₁ es₂ : List (GEdge ν)) :
    walkWeight (es₁ ++ es₂) = walkWeight es₁ + walkWeight es₂ := by
  simp [walkWeight]

theorem walkWeight_nil : walkWeight ([] : List (GEdge ν)) = 0 := rfl

theorem IsWalkFrom.append {edges : List (GEdge ν)} {s m t : ν} {es₁ es₂ : List (GEdge ν)}
    (h₁ : IsWalkFrom edges s m es₁) (h₂ : IsWalkFrom edges m t es₂) :
    IsWalkFrom edges s t (es₁ ++ es₂) := by
  refine ⟨?_, ?_, ?_⟩
  · intro e he
    rcases List.mem_append.mp he with h | h
    · exact h₁.sub e h
    · exact h₂.sub e h
  · rw [chainOk_append]
    exact ⟨h₁.chain, h₁.ends ▸ h₂.chain⟩
  · rw [lastNode_append, h₁.ends]
    exact h₂.ends

theorem IsWalkFrom.single {edges : List (GEdge ν)} {e : GEdge ν} (he : e ∈ edges) :
    IsWalkFrom edges e.u e.v [e] :=
  ⟨fun e' he' => (List.mem_singleton.mp he') ▸ he, ⟨rfl, trivial⟩, rfl⟩

theorem IsWalkFrom.nil (edges : List (GEdge ν)) (s : ν) : IsWalkFrom edges s s [] :=
  ⟨fun e he => absurd he (List.not_mem_nil e), trivial, rfl⟩

/-- Decompose a walk at an arbitrary cut point. -/
theorem IsWalkFrom.split {edges : List (GEdge ν)} {s t : ν} {es : List (GEdge ν)}
    (h : IsWalkFrom edges s t es) (i : Nat) :
    IsWalkFrom edges s (lastNode s (es.take i)) (es.take i) ∧
      IsWalkFrom edges (lastNode s (es.take i)) t (es.drop i) := by
  have hsplit : es = es.take i ++ es.drop i := (List.take_append_drop i es).symm
  have hsub₁ : ∀ e ∈ es.take i, e ∈ edges := fun e he => h.sub e (List.mem_of_mem_take he)
  have hsub₂ : ∀ e ∈ es.drop i, e ∈ edges := fun e he => h.sub e (List.mem_of_mem_drop he)
  have hch := h.chain
  rw [hsplit, chainOk_append] at hch
  have hend := h.ends
  rw [hsplit, lastNode_append] at hend
  exact ⟨⟨hsub₁, hch.1, rfl⟩, ⟨hsub₂, hch.2, hend⟩⟩

/-- The last node of a chain is the start node or the target of one of its
edges. -/
theorem lastNode_cases (s : ν) (es : List (GEdge ν)) :
    lastNode s es = s ∨ ∃ e ∈ es, lastNode s es = e.v := by
  induction es generalizing s with
  | nil => exact Or.inl rfl
  | cons e rest ih =>
    rcases ih e.v with h | ⟨e', he', h⟩
    · exact Or.inr ⟨e, List.mem_cons_self e rest, h⟩
    · exact Or.inr ⟨e', List.mem_cons_of_mem _ he', h⟩

/-- Walks over a graph with no negative edge give rise to no negative
closed walk. -/
theorem noNegClosedWalk_of_nonneg (edges : List (GEdge ν))
    (h : ∀ e ∈ edges, 0 ≤ e.w) : NoNegClosedWalk edges := by
  intro x es _ hw
  rw [walkWeight]
  refine List.sum_nonneg ?_
  intro q hq
  rcases List.mem_map.mp hq with ⟨e, he, rfl⟩
  exact h e (hw.sub e he)

/-- Telescoping a walk along a distance map that satisfies the triangle
inequality on every edge. -/
theorem telescope (E : List (GEdge ν)) (δ : ν → WithTop ℚ)
    (htri : ∀ e ∈ E, δ e.v ≤ δ e.u + (e.w : WithTop ℚ))
    {x t : ν} {es : List (GEdge ν)} (hw : IsWalkFrom E x t es) :
    δ t ≤ δ x + (walkWeight es : WithTop ℚ) := by
  induction es generalizing x with
  | nil =>
    have : t = x := hw.ends.symm
    subst this
    simp [walkWeight]
  | cons e rest ih =>
    have he : e ∈ E := hw.sub e (List.mem_cons_self e rest)
    have heu : e.u = x := hw.chain.1
    have hrest : IsWalkFrom E e.v t rest :=
      ⟨fun e' h' => hw.sub e' (List.mem_cons_of_mem _ h'), hw.chain.2, hw.ends⟩
    have h1 : δ t ≤ δ e.v + (walkWeight rest : WithTop ℚ) := ih hrest
    have h2 : δ e.v ≤ δ e.u + (e.w : WithTop ℚ) := htri e he
    calc δ t ≤ δ e.v + (walkWeight rest : WithTop ℚ) := h1
      _ ≤ (δ e.u + (e.w : WithTop ℚ)) + (walkWeight rest : WithTop ℚ) :=
        add_le_add_right h2 _
      _ = δ x + (walkWeight (e :: rest) : WithTop ℚ) := by
        rw [heu]
        rw [show walkWeight (e :: rest) = e.w + walkWeight rest from by simp [walkWeight]]
        rw [WithTop.coe_add, add_assoc]

/-! ### The core invariant is preserved by relaxation -/

theorem relaxEdge_core (edges : List (GEdge ν)) (initD : ν → WithTop ℚ)
    (e : GEdge ν) (he : e ∈ edges) {s : BFState ν} (hs : BFCore edges initD s) :
    BFCore edges initD (relaxEdge e s) := by
  rw [relaxEdge]
  split_ifs with hc
  · constructor
    · intro v
      by_cases hv : v = e.v
      · subst hv
        simp only [upd_same]
        exact le_trans hc.le (hs.distLe e.v)
      · simp only [upd_ne _ _ _ _ hv]
        exact hs.distLe v
    · intro v hvfin
      by_cases hv : v = e.v
      · subst hv
        simp only [upd_same] at hvfin ⊢
        have hufin : s.dist e.u < ⊤ := (WithTop.add_lt_top.mp hvfin).1
        obtain ⟨x, es, hwalk, hx, heq⟩ := hs.walk e.u hufin
        refine ⟨x, es ++ [e], hwalk.append (IsWalkFrom.single he), hx, ?_⟩
        rw [walkWeight_append,
          show walkWeight [e] = e.w from by simp [walkWeight],
          WithTop.coe_add, ← add_assoc, ← heq]
      · simp only [upd_ne _ _ _ _ hv] at hvfin ⊢
        exact hs.walk v hvfin
  · exact hs

theorem relaxFold_core (edges : List (GEdge ν)) (initD : ν → WithTop ℚ)
    (l : List (GEdge ν)) (hl : ∀ e ∈ l, e ∈ edges) {s : BFState ν}
    (hs : BFCore edges initD s) :
    BFCore edges initD (l.foldl (fun t e => relaxEdge e t) s) := by
  induction l generalizing s with
  | nil => exact hs
  | cons e rest ih =>
    simp only [List.foldl_cons]
    exact ih (fun e' he' => hl e' (List.mem_cons_of_mem _ he'))
      (relaxEdge_core edges initD e (hl e (List.mem_cons_self e rest)) hs)

theorem relaxPass_core (edges : List (GEdge ν)) (initD : ν → WithTop ℚ) {s : BFState ν}
    (hs : BFCore edges initD s) : BFCore edges initD (relaxPass edges s) :=
  relaxFold_core edges initD edges (fun _ he => he) ⟨hs.distLe, hs.walk⟩

theorem relaxRounds_core (edges : List (GEdge ν)) (initD : ν → WithTop ℚ) (k : Nat)
    {s : BFState ν} (hs : BFCore edges initD s) :
    BFCore edges initD (relaxRounds edges k s) := by
  induction k generalizing s with
  | zero => exact hs
  | succ n ih =>
    simp only [relaxRounds]
    split_ifs with hch
    · exact ih (relaxPass_core edges initD hs)
    · exact relaxPass_core edges initD hs

theorem relaxRoundsAll_core (edges : List (GEdge ν)) (initD : ν → WithTop ℚ) (k : Nat)
    {s : BFState ν} (hs : BFCore edges initD s) :
    BFCore edges initD (relaxRoundsAll edges k s) := by
  induction k generalizing s with
  | zero => exact hs
  | succ n ih =>
    rw [relaxRoundsAll]
    exact ih (relaxPass_core edges initD hs)

theorem bfCore_init (edges : List (GEdge ν)) (initD : ν → WithTop ℚ)
    (p : ν → Option ν) (c : Bool) : BFCore edges initD ⟨initD, p, c⟩ := by
  constructor
  · intro v
    exact le_refl _
  · intro v hv
    exact ⟨v, [], IsWalkFrom.nil edges v, hv, by simp [walkWeight]⟩

/-! ### Lower bound: every walk weighs at least the reference distance -/

theorem length_le_of_nodup_subset {l L : List ν} (hnd : l.Nodup)
    (hsub : ∀ x ∈ l, x ∈ L) : l.length ≤ L.length := by
  classical
  calc l.length = l.toFinset.card := (List.toFinset_card_of_nodup hnd).symm
    _ ≤ L.toFinset.card := Finset.card_le_card
        (fun x hx => List.mem_toFinset.mpr (hsub x (List.mem_toFinset.mp hx)))
    _ ≤ L.length := L.toFinset_card_le

theorem pigeonhole_fun {L : List ν} (P : Nat → ν)
    (hP : ∀ i, i ≤ L.length → P i ∈ L) :
    ∃ i j, i < j ∧ j ≤ L.length ∧ P i = P j := by
  by_contra hcon
  push_neg at hcon
  have hnd : ((List.range (L.length + 1)).map P).Nodup := by
    refine List.Nodup.map_on ?_ (List.nodup_range _)
    intro i hi j hj hij
    rcases Nat.lt_trichotomy i j with h | h | h
    · exact absurd hij (hcon i j h (Nat.lt_succ_iff.mp (List.mem_range.mp hj)))
    · exact h
    · exact absurd hij.symm (hcon j i h (Nat.lt_succ_iff.mp (List.mem_range.mp hi)))
  have hsub : ∀ x ∈ (List.range (L.length + 1)).map P, x ∈ L := by
    intro x hx
    rcases List.mem_map.mp hx with ⟨i, hi, rfl⟩
    exact hP i (Nat.lt_succ_iff.mp (List.mem_range.mp hi))
  have := length_le_of_nodup_subset hnd hsub
  rw [List.length_map, List.length_range] at this
  omega

/-- Any walk with at most `k` edges weighs at least the stage-`k` reference
distance. -/
theorem refD_le_walk (edges : List (GEdge ν)) (initD : ν → WithTop ℚ) :
    ∀ (k : Nat) (es : List (GEdge ν)) (x v : ν), IsWalkFrom edges x v es →
      es.length ≤ k → refD edges initD k v ≤ initD x + (walkWeight es : WithTop ℚ) := by
  intro k
  induction k with
  | zero =>
    intro es x v hw hlen
    have : es = [] := List.length_eq_zero.mp (Nat.le_zero.mp hlen)
    subst this
    have : v = x := hw.ends.symm
    subst this
    simp [refD, walkWeight]
  | succ n ih =>
    intro es x v hw hlen
    rcases List.eq_nil_or_concat es with rfl | ⟨es', e, rfl⟩
    · have : v = x := hw.ends.symm
      subst this
      calc refD edges initD (n + 1) v ≤ initD v := refD_le_init edges initD _ v
        _ = initD v + (walkWeight ([] : List (GEdge ν)) : WithTop ℚ) := by
          simp [walkWeight]
    · rw [List.concat_eq_append] at hw hlen ⊢
      obtain ⟨h₁, h₂⟩ := hw.split es'.length
      rw [List.take_left] at h₁ h₂
      rw [List.drop_left] at h₂
      have he : e ∈ edges := h₂.sub e (List.mem_singleton_self e)
      have heu : e.u = lastNode x es' := h₂.chain.1
      have hev : e.v = v := h₂.ends
      have hlen' : es'.length ≤ n := by
        rw [List.length_append, List.length_singleton] at hlen
        omega
      calc refD edges initD (n + 1) v = refD edges initD (n + 1) e.v := by rw [hev]
        _ ≤ refD edges initD n e.u + (e.w : WithTop ℚ) := refD_le_edge edges initD n e he
        _ ≤ (initD x + (walkWeight es' : WithTop ℚ)) + (e.w : WithTop ℚ) := by
          refine add_le_add_right ?_ _
          rw [heu]
          exact ih es' x _ h₁ hlen'
        _ = initD x + (walkWeight (es' ++ [e]) : WithTop ℚ) := by
          rw [walkWeight_append, show walkWeight [e] = e.w from by simp [walkWeight],
            WithTop.coe_add, add_assoc]

/-- Walk-cutting: when no closed walk is negative and all walk nodes lie in
`L`, every walk weighs at least the reference distance at stage
`|L| - 1`. -/
theorem refD_le_walk_of_ncw (edges : List (GEdge ν)) (initD : ν → WithTop ℚ)
    (L : List ν) (hL : ∀ e ∈ edges, e.u ∈ L ∧ e.v ∈ L)
    (hncw : NoNegClosedWalk edges) :
    ∀ (N : Nat) (es : List (GEdge ν)) (x v : ν), es.length ≤ N →
      IsWalkFrom edges x v es → x ∈ L →
      refD edges initD (L.length - 1) v ≤ initD x + (walkWeight es : WithTop ℚ) := by
  intro N
  induction N with
  | zero =>
    intro es x v hlen hw hx
    have : es = [] := List.length_eq_zero.mp (Nat.le_zero.mp hlen)
    subst this
    have : v = x := hw.ends.symm
    subst this
    calc refD edges initD (L.length - 1) v ≤ initD v := refD_le_init edges initD _ v
      _ = initD v + (walkWeight ([] : List (GEdge ν)) : WithTop ℚ) := by simp [walkWeight]
  | succ N ih =>
    intro es x v hlen hw hx
    by_cases hshort : es.length ≤ L.length - 1
    · exact refD_le_walk edges initD (L.length - 1) es x v hw hshort
    · push_neg at hshort
      have hLpos : 0 < L.length := List.length_pos_of_mem hx
      have hnlen : L.length ≤ es.length := by omega
      have hPmem : ∀ i, i ≤ L.length → lastNode x (es.take i) ∈ L := by
        intro i _
        rcases lastNode_cases x (es.take i) with h | ⟨e, he, h⟩
        · rw [h]
          exact hx
        · rw [h]
          exact (hL e (hw.sub e (List.mem_of_mem_take he))).2
      obtain ⟨i, j, hij, hjle, hPeq⟩ := pigeonhole_fun _ hPmem
      -- cut out the closed sub-walk between positions i and j
      obtain ⟨hw₁, hw₂⟩ := hw.split j
      obtain ⟨hw₁₁, hw₁₂⟩ := hw₁.split i
      rw [List.take_take, Nat.min_eq_left hij.le] at hw₁₁ hw₁₂
      have hmidne : (es.take j).drop i ≠ [] := by
        intro hnil
        have := congrArg List.length hnil
        rw [List.length_drop, List.length_take] at this
        simp only [List.length_nil] at this
        omega
      have hmid0 : 0 ≤ walkWeight ((es.take j).drop i) := by
        have hcl : IsWalkFrom edges (lastNode x (es.take i)) (lastNode x (es.take i))
            ((es.take j).drop i) := by
          have h := hw₁₂
          rw [show lastNode x (es.take j) = lastNode x (es.take i) from hPeq.symm] at h
          exact h
        exact hncw _ _ hmidne hcl
      have hwcut : IsWalkFrom edges x v (es.take i ++ es.drop j) := by
        refine hw₁₁.append ?_
        rw [show lastNode x (es.take i) = lastNode x (es.take j) from hPeq]
        exact hw₂
      have hcutlen : (es.take i ++ es.drop j).length ≤ N := by
        rw [List.length_append, List.length_take, List.length_drop]
        omega
      have hwle : walkWeight (es.take i ++ es.drop j) ≤ walkWeight es := by
        have hdecomp : es = (es.take i ++ (es.take j).drop i) ++ es.drop j := by
          rw [show es.take i = (es.take j).take i from by
              rw [List.take_take, Nat.min_eq_left hij.le],
            List.take_append_drop, List.take_append_drop]
        calc walkWeight (es.take i ++ es.drop j)
            = walkWeight (es.take i) + walkWeight (es.drop j) := walkWeight_append _ _
          _ ≤ walkWeight (es.take i) + walkWeight ((es.take j).drop i) +
              walkWeight (es.drop j) := by linarith
          _ = walkWeight es := by
            conv_rhs => rw [hdecomp]
            rw [walkWeight_append, walkWeight_append]
      calc refD edges initD (L.length - 1) v
          ≤ initD x + (walkWeight (es.take i ++ es.drop j) : WithTop ℚ) :=
            ih _ x v hcutlen hwcut hx
        _ ≤ initD x + (walkWeight es : WithTop ℚ) := by
            refine add_le_add_left ?_ _
            exact_mod_cast hwle

/-! ### After the relaxation rounds, no edge relaxes when there is no
negative closed walk -/

theorem no_relax_of_core (edges : List (GEdge ν)) (initD : ν → WithTop ℚ) (L : List ν)
    (hL : ∀ e ∈ edges, e.u ∈ L ∧ e.v ∈ L)
    (hinitL : ∀ x, initD x < ⊤ → x ∈ L)
    (hncw : NoNegClosedWalk edges)
    {d : ν → WithTop ℚ}
    (hwalkInv : ∀ v, d v < ⊤ → ∃ x es, IsWalkFrom edges x v es ∧ initD x < ⊤ ∧
      d v = initD x + (walkWeight es : WithTop ℚ))
    (hupper : ∀ v, d v ≤ refD edges initD (L.length - 1) v) :
    ∀ e ∈ edges, ¬(d e.u + (e.w : WithTop ℚ) < d e.v) := by
  intro e he hlt
  have hufin : d e.u < ⊤ := by
    by_contra h
    rw [not_lt, top_le_iff] at h
    rw [h, WithTop.top_add] at hlt
    exact absurd hlt not_top_lt
  obtain ⟨x, es, hwalk, hx, heq⟩ := hwalkInv e.u hufin
  have hwx : IsWalkFrom edges x e.v (es ++ [e]) := hwalk.append (IsWalkFrom.single he)
  have hlow : refD edges initD (L.length - 1) e.v ≤
      initD x + (walkWeight (es ++ [e]) : WithTop ℚ) :=
    refD_le_walk_of_ncw edges initD L hL hncw (es ++ [e]).length (es ++ [e]) x e.v
      le_rfl hwx (hinitL x hx)
  have hsum : initD x + (walkWeight (es ++ [e]) : WithTop ℚ) = d e.u + (e.w : WithTop ℚ) := by
    rw [walkWeight_append, show walkWeight [e] = e.w from by simp [walkWeight],
      WithTop.coe_add, ← add_assoc, ← heq]
  rw [hsum] at hlow
  exact absurd hlt (not_lt.mpr (le_trans (hupper e.v) hlow))

theorem refD_mono_edges (E₁ E₂ : List (GEdge ν)) (initD : ν → WithTop ℚ)
    (hsub : ∀ e ∈ E₁, e ∈ E₂) (k : Nat) (v : ν) :
    refD E₂ initD k v ≤ refD E₁ initD k v := by
  induction k generalizing v with
  | zero => exact le_refl _
  | succ n ih =>
    conv_rhs => rw [refD]
    refine le_foldr_refD _ _ _ _ _ ?_ ?_
    · exact le_trans (refD_succ_le E₂ initD n v) (ih v)
    · intro e he hev
      subst hev
      exact le_trans (refD_le_edge E₂ initD n e (hsub e he))
        (add_le_add_right (ih e.u) _)

theorem IsWalkFrom.mono {E₁ E₂ : List (GEdge ν)} {x t : ν} {es : List (GEdge ν)}
    (h : IsWalkFrom E₁ x t es) (hsub : ∀ e ∈ E₁, e ∈ E₂) : IsWalkFrom E₂ x t es :=
  ⟨fun e he => hsub e (h.sub e he), h.chain, h.ends⟩

/-! ### Lifting walks to the super-source graph and back -/

theorem walkWeight_map_lift (es : List (GEdge ν)) :
    walkWeight (es.map liftEdge) = walkWeight es := by
  unfold walkWeight
  rw [List.map_map]
  rfl

theorem liftWalk {edges : List (GEdge ν)} {x t : ν} {es : List (GEdge ν)}
    (hw : IsWalkFrom edges x t es) :
    IsWalkFrom (edges.map liftEdge) (some x) (some t) (es.map liftEdge) := by
  induction es generalizing x with
  | nil =>
    have : t = x := hw.ends.symm
    subst this
    exact IsWalkFrom.nil _ _
  | cons e rest ih =>
    have he : e ∈ edges := hw.sub e (List.mem_cons_self e rest)
    have heu : e.u = x := hw.chain.1
    have hrest : IsWalkFrom edges e.v t rest :=
      ⟨fun e' h' => hw.sub e' (List.mem_cons_of_mem _ h'), hw.chain.2, hw.ends⟩
    have ihr := ih hrest
    refine ⟨?_, ?_, ?_⟩
    · intro e' he'
      rcases List.mem_cons.mp he' with rfl | h'
      · exact List.mem_map_of_mem liftEdge he
      · exact ihr.sub e' h'
    · exact ⟨by rw [show (liftEdge e).u = some e.u from rfl, heu], ihr.chain⟩
    · exact ihr.ends

theorem projWalk {edges : List (GEdge ν)} {x t : ν} {es : List (GEdge (Option ν))}
    (hw : IsWalkFrom (edges.map liftEdge) (some x) (some t) es) :
    ∃ es₀, IsWalkFrom edges x t es₀ ∧ walkWeight es₀ = walkWeight es ∧
      es₀.length = es.length := by
  induction es generalizing x with
  | nil =>
    have : (some t : Option ν) = some x := hw.ends.symm
    cases this
    exact ⟨[], IsWalkFrom.nil _ _, rfl, rfl⟩
  | cons e rest ih =>
    have he : e ∈ edges.map liftEdge := hw.sub e (List.mem_cons_self e rest)
    rcases List.mem_map.mp he with ⟨e₀, he₀, rfl⟩
    have heu : (liftEdge e₀).u = some x := hw.chain.1
    have heu₀ : e₀.u = x := by
      have : some e₀.u = some x := heu
      exact Option.some.injEq _ _ ▸ this
    have hrest : IsWalkFrom (edges.map liftEdge) (some e₀.v) (some t) rest :=
      ⟨fun e' h' => hw.sub e' (List.mem_cons_of_mem _ h'), hw.chain.2, hw.ends⟩
    obtain ⟨es₀, hw₀, hwt₀, hlen₀⟩ := ih hrest
    refine ⟨e₀ :: es₀, ⟨?_, ⟨heu₀, hw₀.chain⟩, hw₀.ends⟩, ?_, ?_⟩
    · intro e' he'
      rcases List.mem_cons.mp he' with rfl | h'
      · exact he₀
      · exact hw₀.sub e' h'
    · simp only [walkWeight, List.map_cons, List.sum_cons] at hwt₀ ⊢
      rw [hwt₀]
      rfl
    · simp [hlen₀]

/-- A walk over the super-source edge list starting at a real node never
uses a super-source edge. -/
theorem walk_avoids_super {nodes : List ν} {edges : List (GEdge ν)} {x : ν}
    {t : Option ν} {es : List (GEdge (Option ν))}
    (hw : IsWalkFrom (detectEdges nodes edges) (some x) t es) :
    IsWalkFrom (edges.map liftEdge) (some x) t es := by
  induction es generalizing x with
  | nil => exact ⟨fun e he => absurd he (List.not_mem_nil e), trivial, hw.ends⟩
  | cons e rest ih =>
    have he : e ∈ detectEdges nodes edges := hw.sub e (List.mem_cons_self e rest)
    have heu : e.u = some x := hw.chain.1
    have helift : e ∈ edges.map liftEdge := by
      rcases List.mem_append.mp he with h | h
      · exact h
      · rcases List.mem_map.mp h with ⟨n, _, rfl⟩
        exact absurd heu (by simp)
    rcases List.mem_map.mp helift with ⟨e₀, he₀, rfl⟩
    have hrest : IsWalkFrom (detectEdges nodes edges) (some e₀.v) t rest :=
      ⟨fun e' h' => hw.sub e' (List.mem_cons_of_mem _ h'), hw.chain.2, hw.ends⟩
    have ihr := ih hrest
    refine ⟨?_, ⟨heu, ihr.chain⟩, ihr.ends⟩
    intro e' he'
    rcases List.mem_cons.mp he' with rfl | h'
    · exact helift
    · exact ihr.sub e' h'

/-- No negative closed walk transfers from the real graph to its lifted
copy. -/
theorem ncw_lift {edges : List (GEdge ν)} (hncw : NoNegClosedWalk edges) :
    NoNegClosedWalk (edges.map liftEdge) := by
  intro y es hne hw
  have hy : ∃ x : ν, y = some x := by
    cases es with
    | nil => exact absurd rfl hne
    | cons e rest =>
      have he : e ∈ edges.map liftEdge := hw.sub e (List.mem_cons_self e rest)
      rcases List.mem_map.mp he with ⟨e₀, _, rfl⟩
      have heu : (liftEdge e₀).u = y := hw.chain.1
      exact ⟨e₀.u, heu.symm⟩
  obtain ⟨x, rfl⟩ := hy
  obtain ⟨es₀, hw₀, hwt₀, hlen₀⟩ := projWalk hw
  have hne₀ : es₀ ≠ [] := by
    intro h
    rw [h] at hlen₀
    exact hne (List.length_eq_zero.mp hlen₀.symm)
  rw [← hwt₀]
  exact hncw x es₀ hne₀ hw₀

theorem relaxRoundsAll_dist_le (E : List (GEdge ν)) (k : Nat) (s : BFState ν) (v : ν) :
    (relaxRoundsAll E k s).dist v ≤ s.dist v := by
  induction k generalizing s with
  | zero => exact le_refl _
  | succ n ih =>
    rw [relaxRoundsAll]
    exact le_trans (ih (relaxPass E s)) (relaxPass_dist_le E s v)

theorem relaxFold_dist_eq_of_no_target (l : List (GEdge ν)) (s : BFState ν) (z : ν)
    (hz : ∀ e ∈ l, e.v ≠ z) :
    (l.foldl (fun t e => relaxEdge e t) s).dist z = s.dist z := by
  induction l generalizing s with
  | nil => rfl
  | cons e rest ih =>
    simp only [List.foldl_cons]
    rw [ih _ (fun e' he' => hz e' (List.mem_cons_of_mem _ he'))]
    rw [relaxEdge]
    split_ifs
    · exact upd_ne _ _ _ _ (Ne.symm (hz e (List.mem_cons_self e rest)))
    · rfl

theorem relaxRoundsAll_dist_eq_of_no_target (E : List (GEdge ν)) (k : Nat) (s : BFState ν)
    (z : ν) (hz : ∀ e ∈ E, e.v ≠ z) :
    (relaxRoundsAll E k s).dist z = s.dist z := by
  induction k generalizing s with
  | zero => rfl
  | succ n ih =>
    rw [relaxRoundsAll, ih]
    exact relaxFold_dist_eq_of_no_target E _ z hz

/-- Completeness of the global negative-cycle detector: when no closed walk
is negative (and every edge joins nodes of the node list), the detector
reports `false`. -/
theorem detect_eq_false_of_ncw (nodes : List ν) (edges : List (GEdge ν))
    (hE : ∀ e ∈ edges, e.u ∈ nodes ∧ e.v ∈ nodes)
    (hncw : NoNegClosedWalk edges) :
    detect_any_negative_cycle nodes edges = false := by
  rw [detect_any_negative_cycle]
  rw [List.any_eq_false]
  intro e he
  simp only [decide_eq_true_eq]
  set s := relaxRoundsAll (detectEdges nodes edges) (nodes.length - 1) (detectInit nodes) with hs
  have hnoneTop : s.dist none = ⊤ := by
    rw [hs, relaxRoundsAll_dist_eq_of_no_target]
    · rfl
    · intro e' he'
      rcases List.mem_append.mp he' with h | h
      · rcases List.mem_map.mp h with ⟨e₀, _, rfl⟩
        simp [liftEdge]
      · rcases List.mem_map.mp h with ⟨n', _, rfl⟩
        simp
  rcases List.mem_append.mp he with hlift | hsuper
  · -- a real (lifted) edge: apply the no-relaxation lemma over the lifted
    -- edges only
    have hcore : BFCore (detectEdges nodes edges) (detectInit nodes).dist s :=
      relaxRoundsAll_core _ _ _ (bfCore_init _ _ _ _)
    have hupper : ∀ v, s.dist v ≤
        refD (edges.map liftEdge) (detectInit nodes).dist ((nodes.map some).length - 1) v := by
      intro v
      have h1 : s.dist v ≤
          refD (detectEdges nodes edges) (detectInit nodes).dist (0 + (nodes.length - 1)) v :=
        relaxRoundsAll_le_refD _ _ _ _ 0 (fun v => le_refl _) v
      rw [Nat.zero_add] at h1
      refine le_trans h1 ?_
      rw [List.length_map]
      exact refD_mono_edges _ _ _ (fun e' he' => List.mem_append_left _ he') _ v
    have hnorelax := no_relax_of_core (edges.map liftEdge) (detectInit nodes).dist
      (nodes.map some)
      (fun e' he' => by
        rcases List.mem_map.mp he' with ⟨e₀, he₀, rfl⟩
        exact ⟨List.mem_map_of_mem some (hE e₀ he₀).1, List.mem_map_of_mem some (hE e₀ he₀).2⟩)
      (fun x hx => by
        cases x with
        | none => exact absurd hx (by simp [detectInit])
        | some y =>
          refine List.mem_map_of_mem some ?_
          by_contra hy
          rw [show (detectInit nodes).dist (some y) = ⊤ from by simp [detectInit, hy]] at hx
          exact absurd hx (lt_irrefl _))
      (ncw_lift hncw)
      (fun v hv => by
        obtain ⟨x, es, hwalk, hx, heq⟩ := hcore.walk v hv
        have hxreal : ∃ y, x = some y := by
          cases x with
          | none => exact absurd hx (by simp [detectInit])
          | some y => exact ⟨y, rfl⟩
        obtain ⟨y, rfl⟩ := hxreal
        exact ⟨some y, es, walk_avoids_super hwalk, hx, heq⟩)
      hupper
    exact hnorelax e hlift
  · -- a super-source edge never relaxes: its source keeps distance ⊤
    rcases List.mem_map.mp hsuper with ⟨n', _, rfl⟩
    rw [show (GEdge.mk (none : Option ν) (some n') 0).u = none from rfl, hnoneTop,
      WithTop.top_add]
    exact not_top_lt

/-- Soundness of the global negative-cycle detector: a negative closed walk
makes it report `true`. -/
theorem detect_eq_true_of_neg_walk (nodes : List ν) (edges : List (GEdge ν))
    (hE : ∀ e ∈ edges, e.u ∈ nodes ∧ e.v ∈ nodes)
    (x : ν) (es : List (GEdge ν)) (hne : es ≠ []) (hwalk : IsWalkFrom edges x x es)
    (hneg : walkWeight es < 0) :
    detect_any_negative_cycle nodes edges = true := by
  by_contra hdet
  rw [Bool.not_eq_true] at hdet
  rw [detect_any_negative_cycle, List.any_eq_false] at hdet
  have htri : ∀ e ∈ detectEdges nodes edges,
      (relaxRoundsAll (detectEdges nodes edges) (nodes.length - 1)
        (detectInit nodes)).dist e.v ≤
      (relaxRoundsAll (detectEdges nodes edges) (nodes.length - 1)
        (detectInit nodes)).dist e.u + (e.w : WithTop ℚ) := by
    intro e he
    have := hdet e he
    simp only [decide_eq_true_eq] at this
    exact not_lt.mp this
  set δ := (relaxRoundsAll (detectEdges nodes edges) (nodes.length - 1)
    (detectInit nodes)).dist with hδ
  have hxnodes : x ∈ nodes := by
    cases es with
    | nil => exact absurd rfl hne
    | cons e rest =>
      have := (hE e (hwalk.sub e (List.mem_cons_self e rest))).1
      rw [hwalk.chain.1] at this
      exact this
  have hle0 : δ (some x) ≤ ((0 : ℚ) : WithTop ℚ) := by
    rw [hδ]
    refine le_trans (relaxRoundsAll_dist_le _ _ _ _) ?_
    simp [detectInit, hxnodes]
  have hlifted : IsWalkFrom (detectEdges nodes edges) (some x) (some x) (es.map liftEdge) :=
    (liftWalk hwalk).mono (fun e' he' => List.mem_append_left _ he')
  have htel : δ (some x) ≤ δ (some x) + (walkWeight (es.map liftEdge) : WithTop ℚ) :=
    telescope _ δ htri hlifted
  rw [walkWeight_map_lift] at htel
  have hfin : δ (some x) ≠ ⊤ := by
    intro h
    rw [h] at hle0
    exact absurd hle0 (by simp)
  obtain ⟨q, hq⟩ := WithTop.ne_top_iff_exists.mp hfin
  rw [← hq, ← WithTop.coe_add, WithTop.coe_le_coe] at htel
  have : 0 ≤ walkWeight es := by linarith
  exact absurd hneg (not_lt.mpr this)

/-- The negative-cycle flag of `bellman_ford` stays `false` when the graph
has no negative closed walk. -/
theorem bellman_ford_no_neg_flag (nodes : List ν) (edges : List (GEdge ν)) (src : ν)
    (hE : ∀ e ∈ edges, e.u ∈ nodes ∧ e.v ∈ nodes) (hsrc : src ∈ nodes)
    (hncw : NoNegClosedWalk edges) :
    (bellman_ford nodes edges src).2.2 = false := by
  rw [bellman_ford]
  rw [List.any_eq_false]
  intro e he
  simp only [decide_eq_true_eq]
  have hcore : BFCore edges (bfInit src).dist
      (relaxRounds edges (nodes.length - 1) (bfInit src)) :=
    relaxRounds_core _ _ _ (bfCore_init _ _ _ _)
  have hupper : ∀ v, (relaxRounds edges (nodes.length - 1) (bfInit src)).dist v ≤
      refD edges (bfInit src).dist (nodes.length - 1) v := by
    intro v
    have h1 := relaxRounds_le_refD edges (bfInit src).dist (nodes.length - 1)
      (bfInit src) 0 (fun v => le_refl _) v
    rw [Nat.zero_add] at h1
    exact h1
  exact no_relax_of_core edges (bfInit src).dist nodes hE
    (fun v hv => by
      by_cases h : v = src
      · exact h ▸ hsrc
      · rw [show (bfInit src).dist v = ⊤ from by simp [bfInit, h]] at hv
        exact absurd hv (lt_irrefl _))
    hncw hcore.walk hupper e he

/-- C1: a closed walk of negative total weight anywhere in a well-formed
graph makes `plan_cycle_ABC` fail (`ok = false`) with a reason containing
"negative cycle", whichever registered states the three waypoints are. -/
theorem plan_cycle_negative_cycle {σ ε : Type} [DecidableEq σ] [DecidableEq ε]
    (f : FSM σ ε) (A B C : σ)
    (hwf : ∀ t ∈ f.transitions, t.src ∈ f.states ∧ t.dst ∈ f.states)
    (hA : A ∈ f.states) (hB : B ∈ f.states) (hC : C ∈ f.states)
    (x : σ) (es : List (GEdge σ)) (hne : es ≠ [])
    (hwalk : IsWalkFrom (edges_from_fsm f) x x es) (hneg : walkWeight es < 0) :
    (plan_cycle_ABC f A B C).ok = false ∧
    ∃ l r, (plan_cycle_ABC f A B C).reason.data =
      l ++ ("negative cycle").data ++ r := by
  have hE : ∀ e ∈ edges_from_fsm f, e.u ∈ f.states ∧ e.v ∈ f.states := by
    intro e he
    rcases List.mem_map.mp he with ⟨t, ht, rfl⟩
    exact hwf t ht
  have hdet : detect_any_negative_cycle f.states (edges_from_fsm f) = true :=
    detect_eq_true_of_neg_walk f.states (edges_from_fsm f) hE x es hne hwalk hneg
  have hm : ¬(A ∉ f.states ∨ B ∉ f.states ∨ C ∉ f.states) := by
    push_neg
    exact ⟨hA, hB, hC⟩
  have hres : plan_cycle_ABC f A B C =
      ⟨[], ⊤, false, "negative cycle exists in graph"⟩ := by
    simp only [plan_cycle_ABC]
    rw [if_neg hm]
    simp only [Bool.false_eq_true, if_false]
    rw [hdet, if_pos rfl]
  rw [hres]
  exact ⟨rfl, [], (" exists in graph").data, rfl⟩

theorem plan_cycle_negative_cycle_witness :
    ((∀ t ∈ fsmNegCycle.transitions,
        t.src ∈ fsmNegCycle.states ∧ t.dst ∈ fsmNegCycle.states) ∧
      ("A" : String) ∈ fsmNegCycle.states ∧
      ("B" : String) ∈ fsmNegCycle.states ∧
      ("C" : String) ∈ fsmNegCycle.states ∧
      IsWalkFrom (edges_from_fsm fsmNegCycle) ("A") ("A")
        [⟨("A"), ("B"), 1⟩, ⟨("B"), ("A"), -3⟩] ∧
      walkWeight [(⟨("A"), ("B"), 1⟩ : GEdge String), ⟨("B"), ("A"), -3⟩] < 0) ∧
    ((plan_cycle_ABC fsmNegCycle ("A") ("B") ("C")).ok = false ∧
      ∃ l r, (plan_cycle_ABC fsmNegCycle ("A") ("B") ("C")).reason.data =
        l ++ ("negative cycle").data ++ r) := by
  have hwf : ∀ t ∈ fsmNegCycle.transitions,
      t.src ∈ fsmNegCycle.states ∧ t.dst ∈ fsmNegCycle.states := by decide
  have hwalk : IsWalkFrom (edges_from_fsm fsmNegCycle) ("A") ("A")
      [⟨("A"), ("B"), 1⟩, ⟨("B"), ("A"), -3⟩] := by
    refine ⟨?_, ?_, ?_⟩
    · decide
    · exact ⟨rfl, rfl, trivial⟩
    · rfl
  have hneg : walkWeight [(⟨("A"), ("B"), 1⟩ : GEdge String), ⟨("B"), ("A"), -3⟩] < 0 := by
    show ((1 : ℚ) + (-3 + 0) : ℚ) < 0
    norm_num
  exact ⟨⟨hwf, by decide, by decide, by decide, hwalk, hneg⟩,
    plan_cycle_negative_cycle fsmNegCycle ("A") ("B") ("C") hwf
      (by decide) (by decide) (by decide) ("A") _
      (List.cons_ne_nil _ _) hwalk hneg⟩

theorem refD_realized (edges : List (GEdge ν)) (initD : ν → WithTop ℚ) :
    ∀ (k : Nat) (v : ν), refD edges initD k v < ⊤ →
      ∃ x es, IsWalkFrom edges x v es ∧ es.length ≤ k ∧ initD x < ⊤ ∧
        refD edges initD k v = initD x + (walkWeight es : WithTop ℚ) := by
  intro k
  induction k with
  | zero =>
    intro v hv
    refine ⟨v, [], IsWalkFrom.nil edges v, Nat.le_refl 0, hv, ?_⟩
    show initD v = initD v + (walkWeight ([] : List (GEdge ν)) : WithTop ℚ)
    simp [walkWeight]
  | succ n ih =>
    intro v hv
    have hunfold : refD edges initD (n + 1) v =
        edges.foldr
          (fun e acc =>
            if e.v = v then min (refD edges initD n e.u + (e.w : WithTop ℚ)) acc else acc)
          (refD edges initD n v) := rfl
    rcases foldr_refD_attained edges
        (fun e => refD edges initD n e.u + (e.w : WithTop ℚ))
        (refD edges initD n v) v with hbase | ⟨e, he, hev, heq⟩
    · rw [hunfold, hbase] at hv ⊢
      obtain ⟨x, es, hw, hlen, hx, hval⟩ := ih v hv
      exact ⟨x, es, hw, Nat.le_succ_of_le hlen, hx, hval⟩
    · rw [hunfold, heq] at hv ⊢
      have hu : refD edges initD n e.u < ⊤ := (WithTop.add_lt_top.mp hv).1
      obtain ⟨x, es, hw, hlen, hx, hval⟩ := ih e.u hu
      refine ⟨x, es ++ [e], ?_, ?_, hx, ?_⟩
      · have := hw.append (IsWalkFrom.single he)
        rw [hev] at this
        exact this
      · rw [List.length_append, List.length_singleton]
        omega
      · rw [hval, walkWeight_append, show walkWeight [e] = e.w from by simp [walkWeight],
          WithTop.coe_add, add_assoc]

/-- The reference distance is a lower bound on the weight of every walk
from the source. -/
theorem dijkstraDist_le_walk (nodes : List ν) (edges : List (GEdge ν)) (src : ν)
    (hE : ∀ e ∈ edges, e.u ∈ nodes ∧ e.v ∈ nodes) (hsrc : src ∈ nodes)
    (hnonneg : ∀ e ∈ edges, 0 ≤ e.w) (v : ν) (es : List (GEdge ν))
    (hw : IsWalkFrom edges src v es) :
    dijkstraDist nodes edges src v ≤ (walkWeight es : WithTop ℚ) := by
  have h := refD_le_walk_of_ncw edges
    (fun x => if x = src then ((0 : ℚ) : WithTop ℚ) else ⊤) nodes hE
    (noNegClosedWalk_of_nonneg edges hnonneg) es.length es src v (le_refl _) hw hsrc
  have h0 : (fun x => if x = src then ((0 : ℚ) : WithTop ℚ) else ⊤) src =
      ((0 : ℚ) : WithTop ℚ) := by simp
  rw [h0] at h
  rw [dijkstraDist]
  calc refD edges (fun x => if x = src then ((0 : ℚ) : WithTop ℚ) else ⊤)
        (nodes.length - 1) v ≤ ((0 : ℚ) : WithTop ℚ) + (walkWeight es : WithTop ℚ) := h
    _ = (walkWeight es : WithTop ℚ) := by
        rw [← WithTop.coe_add, zero_add]

/-- A finite reference distance is attained by an actual walk from the
source. -/
theorem dijkstraDist_attained (nodes : List ν) (edges : List (GEdge ν)) (src v : ν)
    (hfin : dijkstraDist nodes edges src v < ⊤) :
    ∃ es, IsWalkFrom edges src v es ∧
      dijkstraDist nodes edges src v = (walkWeight es : WithTop ℚ) := by
  rw [dijkstraDist] at hfin ⊢
  obtain ⟨x, es, hw, _, hx, hval⟩ := refD_realized edges
    (fun x => if x = src then ((0 : ℚ) : WithTop ℚ) else ⊤) (nodes.length - 1) v hfin
  have hxsrc : x = src := by
    by_contra h
    simp only [if_neg h] at hx
    exact absurd hx (lt_irrefl _)
  rw [hxsrc] at hw hval
  rw [if_pos (rfl : src = src), ← WithTop.coe_add, zero_add] at hval
  exact ⟨es, hw, hval⟩

/-- C3: on every graph with no negative edge weight, the distance map of
`bellman_ford` agrees at every node with the reference shortest-path
distance `dijkstraDist` (the quantity Dijkstra's algorithm computes on
non-negative weights). -/
theorem bellman_ford_eq_dijkstra (nodes : List ν) (edges : List (GEdge ν)) (src : ν)
    (hE : ∀ e ∈ edges, e.u ∈ nodes ∧ e.v ∈ nodes) (hsrc : src ∈ nodes)
    (hnonneg : ∀ e ∈ edges, 0 ≤ e.w) (v : ν) :
    (bellman_ford nodes edges src).1 v = dijkstraDist nodes edges src v := by
  have hncw : NoNegClosedWalk edges := noNegClosedWalk_of_nonneg edges hnonneg
  have hbf : (bellman_ford nodes edges src).1 =
      (relaxRounds edges (nodes.length - 1) (bfInit src)).dist := rfl
  have hdij : dijkstraDist nodes edges src v =
      refD edges (bfInit src).dist (nodes.length - 1) v := rfl
  rw [hbf, hdij]
  refine le_antisymm ?_ ?_
  · have h := relaxRounds_le_refD edges (bfInit src).dist (nodes.length - 1)
      (bfInit src) 0 (fun v => le_refl _) v
    rw [Nat.zero_add] at h
    exact h
  · by_cases hfin : (relaxRounds edges (nodes.length - 1) (bfInit src)).dist v < ⊤
    · obtain ⟨x, es, hw, hx, heq⟩ :=
        (relaxRounds_core edges (bfInit src).dist (nodes.length - 1)
          (bfCore_init edges (bfInit src).dist (fun _ => none) false)).walk v hfin
      have hxsrc : x = src := by
        by_contra h
        rw [show (bfInit src).dist x = ⊤ from by simp [bfInit, h]] at hx
        exact absurd hx (lt_irrefl _)
      rw [hxsrc] at hw heq
      have h := refD_le_walk_of_ncw edges (bfInit src).dist nodes hE hncw
        es.length es src v (le_refl _) hw hsrc
      rw [← heq] at h
      exact h
    · rw [not_lt, top_le_iff] at hfin
      rw [hfin]
      exact le_top

theorem bellman_ford_eq_dijkstra_witness :
    ((∀ e ∈ edges_from_fsm fsmC2, e.u ∈ fsmC2.states ∧ e.v ∈ fsmC2.states) ∧
      ("A" : String) ∈ fsmC2.states ∧
      (∀ e ∈ edges_from_fsm fsmC2, 0 ≤ e.w)) ∧
    ∀ v, (bellman_ford fsmC2.states (edges_from_fsm fsmC2) ("A")).1 v =
      dijkstraDist fsmC2.states (edges_from_fsm fsmC2) ("A") v :=
  ⟨⟨by decide, by decide, by decide⟩,
    fun v => bellman_ford_eq_dijkstra fsmC2.states (edges_from_fsm fsmC2) ("A")
      (by decide) (by decide) (by decide) v⟩

/-! ### The predecessor invariant -/

theorem predReaches_walk (edges : List (GEdge ν)) (d : ν → WithTop ℚ) (p : ν → Option ν)
    (hpe : ∀ v u, p v = some u → ∃ w, GEdge.mk u v w ∈ edges ∧
      d u + (w : WithTop ℚ) ≤ d v ∧ d v < ⊤)
    {a b : ν} (hr : PredReaches p a b) :
    ∃ es, IsWalkFrom edges b a es ∧ d b + (walkWeight es : WithTop ℚ) ≤ d a := by
  induction hr with
  | refl v =>
    refine ⟨[], IsWalkFrom.nil edges v, ?_⟩
    simp [walkWeight]
  | @step v u x hpv hr ih =>
    obtain ⟨es, hw, hle⟩ := ih
    obtain ⟨w, hmem, hlew, _⟩ := hpe _ _ hpv
    refine ⟨es ++ [GEdge.mk u v w], hw.append (IsWalkFrom.single hmem), ?_⟩
    rw [walkWeight_append, show walkWeight [GEdge.mk u v w] = w from by simp [walkWeight],
      WithTop.coe_add, ← add_assoc]
    exact le_trans (add_le_add_right hle _) hlew

theorem reachesRoot_upd_of_avoid (p : ν → Option ν) (t u₀ : ν) :
    ∀ {z : ν}, ReachesRoot p z → ¬ PredReaches p z t →
      ReachesRoot (upd p t (some u₀)) z := by
  intro z hz
  induction hz with
  | @root v hv =>
    intro havoid
    have hvt : v ≠ t := fun h => havoid (by rw [h]; exact PredReaches.refl t)
    exact ReachesRoot.root (by rw [upd_ne p t v (some u₀) hvt]; exact hv)
  | @step v u hpv hr ih =>
    intro havoid
    have hvt : v ≠ t := fun h => havoid (by rw [h]; exact PredReaches.refl t)
    have havoid' : ¬ PredReaches p u t := fun hu => havoid (PredReaches.step hpv hu)
    exact ReachesRoot.step (by rw [upd_ne p t v (some u₀) hvt]; exact hpv) (ih havoid')

theorem reachesRoot_upd (p : ν → Option ν) (t u₀ : ν)
    (hall : ∀ z, ReachesRoot p z) (hnr : ¬ PredReaches p u₀ t) (x : ν) :
    ReachesRoot (upd p t (some u₀)) x := by
  have hu : ReachesRoot (upd p t (some u₀)) u₀ :=
    reachesRoot_upd_of_avoid p t u₀ (hall u₀) hnr
  have hx := hall x
  induction hx with
  | @root v hv =>
    by_cases hvt : v = t
    · rw [hvt]
      exact ReachesRoot.step (upd_same p t (some u₀)) hu
    · exact ReachesRoot.root (by rw [upd_ne p t v (some u₀) hvt]; exact hv)
  | @step v u hpv hr ih =>
    by_cases hvt : v = t
    · rw [hvt]
      exact ReachesRoot.step (upd_same p t (some u₀)) hu
    · exact ReachesRoot.step (by rw [upd_ne p t v (some u₀) hvt]; exact hpv) ih

theorem relaxEdge_pred (edges : List (GEdge ν)) (initD : ν → WithTop ℚ) (e : GEdge ν)
    (he : e ∈ edges) (hncw : NoNegClosedWalk edges)
    (hinit : ∀ x y, initD x < ⊤ → initD y < ⊤ → x = y)
    {s : BFState ν} (hc : BFCore edges initD s) (hp : BFPred edges initD s) :
    BFPred edges initD (relaxEdge e s) := by
  rw [relaxEdge]
  split_ifs with hlt
  swap
  · exact hp
  have hfinU : s.dist e.u < ⊤ := by
    by_contra h
    rw [not_lt, top_le_iff] at h
    rw [h, WithTop.top_add] at hlt
    exact absurd hlt not_top_lt
  have hnr : ¬ PredReaches s.pred e.u e.v := by
    intro hr
    obtain ⟨es, hw, hle⟩ := predReaches_walk edges s.dist s.pred hp.predEdge hr
    have hwalk : IsWalkFrom edges e.v e.v (es ++ [e]) := hw.append (IsWalkFrom.single he)
    have h0 : 0 ≤ walkWeight (es ++ [e]) := hncw e.v (es ++ [e]) (by simp) hwalk
    rw [walkWeight_append, show walkWeight [e] = e.w from by simp [walkWeight]] at h0
    have h1 : s.dist e.v + ((walkWeight es + e.w : ℚ) : WithTop ℚ) < s.dist e.v := by
      rw [WithTop.coe_add, ← add_assoc]
      exact lt_of_le_of_lt (add_le_add_right hle _) hlt
    have h2 : s.dist e.v ≤ s.dist e.v + ((walkWeight es + e.w : ℚ) : WithTop ℚ) :=
      le_add_of_nonneg_right (by exact_mod_cast h0)
    exact absurd (lt_of_le_of_lt h2 h1) (lt_irrefl _)
  have huv : e.u ≠ e.v := by
    intro h
    exact hnr (by rw [h]; exact PredReaches.refl e.v)
  constructor
  · intro v u hpu
    dsimp only at hpu ⊢
    by_cases hv : v = e.v
    · subst hv
      rw [upd_same] at hpu
      obtain rfl := Option.some.inj hpu
      refine ⟨e.w, he, ?_, ?_⟩
      · rw [upd_ne s.dist e.v e.u _ huv, upd_same]
      · rw [upd_same]
        exact lt_of_lt_of_le hlt le_top
    · rw [upd_ne s.pred e.v v _ hv] at hpu
      obtain ⟨w', hmem, hlew, hfinv⟩ := hp.predEdge v u hpu
      have hdu : upd s.dist e.v (s.dist e.u + (e.w : WithTop ℚ)) u ≤ s.dist u := by
        by_cases hu : u = e.v
        · subst hu
          rw [upd_same]
          exact le_of_lt hlt
        · rw [upd_ne s.dist e.v u _ hu]
      refine ⟨w', hmem, ?_, ?_⟩
      · rw [upd_ne s.dist e.v v _ hv]
        exact le_trans (add_le_add_right hdu _) hlew
      · rw [upd_ne s.dist e.v v _ hv]
        exact hfinv
  · intro v hpv hdv
    dsimp only at hpv hdv
    have hv : v ≠ e.v := by
      intro h
      rw [h, upd_same] at hpv
      exact absurd hpv (by simp)
    rw [upd_ne s.pred e.v v _ hv] at hpv
    rw [upd_ne s.dist e.v v _ hv] at hdv
    exact hp.predNone v hpv hdv
  · intro v
    exact reachesRoot_upd s.pred e.v e.u hp.reaches hnr v
  · intro v hvinit
    dsimp only
    by_cases hv : v = e.v
    · exfalso
      subst hv
      obtain ⟨x, es, hw, hx, heq⟩ := hc.walk e.u hfinU
      have hxv : x = e.v := hinit x e.v hx hvinit
      subst hxv
      have hwalk : IsWalkFrom edges e.v e.v (es ++ [e]) := hw.append (IsWalkFrom.single he)
      have h0 : 0 ≤ walkWeight (es ++ [e]) := hncw e.v (es ++ [e]) (by simp) hwalk
      rw [walkWeight_append, show walkWeight [e] = e.w from by simp [walkWeight]] at h0
      have h1 : initD e.v + ((walkWeight es + e.w : ℚ) : WithTop ℚ) < initD e.v := by
        rw [WithTop.coe_add, ← add_assoc, ← heq]
        exact lt_of_lt_of_le hlt (hc.distLe e.v)
      have h2 : initD e.v ≤ initD e.v + ((walkWeight es + e.w : ℚ) : WithTop ℚ) :=
        le_add_of_nonneg_right (by exact_mod_cast h0)
      exact absurd (lt_of_le_of_lt h2 h1) (lt_irrefl _)
    · rw [upd_ne s.pred e.v v _ hv]
      exact hp.rootsInit v hvinit

theorem relaxFold_pred (edges : List (GEdge ν)) (initD : ν → WithTop ℚ)
    (hncw : NoNegClosedWalk edges)
    (hinit : ∀ x y, initD x < ⊤ → initD y < ⊤ → x = y)
    (l : List (GEdge ν)) (hl : ∀ e ∈ l, e ∈ edges) {s : BFState ν}
    (hc : BFCore edges initD s) (hp : BFPred edges initD s) :
    BFPred edges initD (l.foldl (fun t e => relaxEdge e t) s) := by
  induction l generalizing s with
  | nil => exact hp
  | cons e rest ih =>
    simp only [List.foldl_cons]
    exact ih (fun e' he' => hl e' (List.mem_cons_of_mem _ he'))
      (relaxEdge_core edges initD e (hl e (List.mem_cons_self e rest)) hc)
      (relaxEdge_pred edges initD e (hl e (List.mem_cons_self e rest)) hncw hinit hc hp)

theorem relaxPass_pred (edges : List (GEdge ν)) (initD : ν → WithTop ℚ)
    (hncw : NoNegClosedWalk edges)
    (hinit : ∀ x y, initD x < ⊤ → initD y < ⊤ → x = y)
    {s : BFState ν} (hc : BFCore edges initD s) (hp : BFPred edges initD s) :
    BFPred edges initD (relaxPass edges s) :=
  relaxFold_pred edges initD hncw hinit edges (fun _ he => he)
    ⟨hc.distLe, hc.walk⟩ ⟨hp.predEdge, hp.predNone, hp.reaches, hp.rootsInit⟩

theorem relaxRounds_pred (edges : List (GEdge ν)) (initD : ν → WithTop ℚ)
    (hncw : NoNegClosedWalk edges)
    (hinit : ∀ x y, initD x < ⊤ → initD y < ⊤ → x = y) (k : Nat)
    {s : BFState ν} (hc : BFCore edges initD s) (hp : BFPred edges initD s) :
    BFPred edges initD (relaxRounds edges k s) := by
  induction k generalizing s with
  | zero => exact hp
  | succ n ih =>
    simp only [relaxRounds]
    split_ifs with hch
    · exact ih (relaxPass_core edges initD hc) (relaxPass_pred edges initD hncw hinit hc hp)
    · exact relaxPass_pred edges initD hncw hinit hc hp

theorem bfPred_init (edges : List (GEdge ν)) (initD : ν → WithTop ℚ) (c : Bool) :
    BFPred edges initD ⟨initD, fun _ => none, c⟩ := by
  constructor
  · intro v u h
    exact absurd h (by simp)
  · intro v _ hv
    exact hv
  · intro v
    exact ReachesRoot.root rfl
  · intro v _
    rfl

/-! ### Predecessor chains and the reconstruction loop -/

theorem reachesRoot_chain {p : ν → Option ν} {v : ν} (h : ReachesRoot p v) :
    ∃ l, IsPredChain p v l := by
  induction h with
  | @root v hv => exact ⟨[v], IsPredChain.single hv⟩
  | @step v u hpv hr ih =>
    obtain ⟨l, hl⟩ := ih
    exact ⟨v :: l, IsPredChain.cons hpv hl⟩

theorem predReaches_snoc {p : ν → Option ν} {a b c : ν}
    (h : PredReaches p a b) (hbc : p b = some c) : PredReaches p a c := by
  induction h with
  | refl v => exact PredReaches.step hbc (PredReaches.refl c)
  | @step v u x hpv hr ih => exact PredReaches.step hpv (ih hbc)

theorem no_pred_cycle {p : ν → Option ν} {v : ν} (h : ReachesRoot p v) :
    ∀ u, p v = some u → PredReaches p u v → False := by
  induction h with
  | @root v hv =>
    intro u hu _
    rw [hv] at hu
    exact absurd hu (by simp)
  | @step v u₁ hpv hr ih =>
    intro u hu hcyc
    rw [hpv] at hu
    have huu : u = u₁ := (Option.some.inj hu).symm
    subst huu
    cases hcyc with
    | refl => exact ih _ hpv (PredReaches.refl _)
    | @step _ u₂ _ hpu hr₂ =>
      exact ih u₂ hpu (predReaches_snoc hr₂ hpv)

theorem isPredChain_mem {p : ν → Option ν} {u : ν} {l : List ν}
    (h : IsPredChain p u l) : ∀ z ∈ l, PredReaches p u z := by
  induction h with
  | @single v hv =>
    intro z hz
    rw [List.mem_singleton] at hz
    rw [hz]
    exact PredReaches.refl v
  | @cons v u' l' hpv hch ih =>
    intro z hz
    rcases List.mem_cons.mp hz with rfl | hz'
    · exact PredReaches.refl z
    · exact PredReaches.step hpv (ih z hz')

theorem isPredChain_nodup {p : ν → Option ν}
    (hall : ∀ z, ReachesRoot p z) {v : ν} {l : List ν}
    (h : IsPredChain p v l) : l.Nodup := by
  induction h with
  | @single v hv => exact List.nodup_singleton v
  | @cons v u l' hpv hch ih =>
    refine List.nodup_cons.mpr ⟨?_, ih⟩
    intro hmem
    exact no_pred_cycle (hall v) u hpv (isPredChain_mem hch v hmem)

theorem isPredChain_ne_nil {p : ν → Option ν} {v : ν} {l : List ν}
    (h : IsPredChain p v l) : l ≠ [] := by
  cases h with
  | single hv => exact List.cons_ne_nil _ _
  | cons hpv hch => exact List.cons_ne_nil _ _

theorem isPredChain_getLast {p : ν → Option ν} {v : ν} {l : List ν}
    (h : IsPredChain p v l) :
    ∃ r, l.getLast? = some r ∧ p r = none ∧ r ∈ l := by
  induction h with
  | @single v hv => exact ⟨v, rfl, hv, List.mem_singleton_self v⟩
  | @cons v u l' hpv hch ih =>
    obtain ⟨r, hlast, hpr, hrmem⟩ := ih
    refine ⟨r, ?_, hpr, List.mem_cons_of_mem _ hrmem⟩
    cases l' with
    | nil => exact absurd rfl (isPredChain_ne_nil hch)
    | cons a l'' =>
      rw [List.getLast?_cons_cons]
      exact hlast

theorem isPredChain_head {p : ν → Option ν} {v : ν} {l : List ν}
    (h : IsPredChain p v l) : ∃ l', l = v :: l' := by
  cases h with
  | single hv => exact ⟨[], rfl⟩
  | @cons _ u l' hpv hch => exact ⟨l', rfl⟩

theorem isPredChain_dist_lt_top (edges : List (GEdge ν)) (d : ν → WithTop ℚ)
    {p : ν → Option ν}
    (hpe : ∀ v u, p v = some u → ∃ w, GEdge.mk u v w ∈ edges ∧
      d u + (w : WithTop ℚ) ≤ d v ∧ d v < ⊤)
    {v : ν} {l : List ν} (h : IsPredChain p v l) (hv : d v < ⊤) :
    ∀ z ∈ l, d z < ⊤ := by
  induction h with
  | @single v hv' =>
    intro z hz
    rw [List.mem_singleton] at hz
    rw [hz]
    exact hv
  | @cons v u l' hpv hch ih =>
    obtain ⟨w, _, hle, _⟩ := hpe v u hpv
    have hu : d u < ⊤ := by
      have : d u + (w : WithTop ℚ) < ⊤ := lt_of_le_of_lt hle hv
      exact (WithTop.add_lt_top.mp this).1
    intro z hz
    rcases List.mem_cons.mp hz with rfl | hz'
    · exact hv
    · exact ih hu z hz'

/-- Every node with a finite Bellman-Ford distance lies in the node list,
provided the initially-finite nodes and all edge endpoints do. -/
theorem dist_lt_top_mem (edges : List (GEdge ν)) (initD : ν → WithTop ℚ)
    (nodes : List ν) (hE : ∀ e ∈ edges, e.u ∈ nodes ∧ e.v ∈ nodes)
    (hinitN : ∀ x, initD x < ⊤ → x ∈ nodes) {s : BFState ν}
    (hc : BFCore edges initD s) {v : ν} (hv : s.dist v < ⊤) : v ∈ nodes := by
  obtain ⟨x, es, hw, hx, _⟩ := hc.walk v hv
  rcases lastNode_cases x es with h | ⟨e, he, h⟩
  · rw [hw.ends] at h
    rw [h]
    exact hinitN x hx
  · rw [hw.ends] at h
    rw [h]
    exact (hE e (hw.sub e he)).2

theorem reconstruct_chain {p : ν → Option ν} :
    ∀ {v : ν} {l : List ν}, IsPredChain p v l → l.Nodup →
      ∀ (fuel : Nat) (visited path : List ν), (∀ z ∈ l, z ∉ visited) →
        l.length ≤ fuel →
        reconstruct p fuel visited path (some v) = ReconResult.found (path ++ l) := by
  intro v l h
  induction h with
  | @single v hv =>
    intro _ fuel visited path hdisj hfuel
    cases fuel with
    | zero => exact absurd hfuel (by simp)
    | succ f =>
      rw [reconstruct]
      rw [if_neg (hdisj v (List.mem_singleton_self v)), hv]
      cases f <;> rfl
  | @cons v u l' hpv hch ih =>
    intro hnd fuel visited path hdisj hfuel
    cases fuel with
    | zero => exact absurd hfuel (by simp)
    | succ f =>
      rw [reconstruct]
      rw [if_neg (hdisj v (List.mem_cons_self v l')), hpv]
      have hnd' : l'.Nodup := (List.nodup_cons.mp hnd).2
      have hvl' : v ∉ l' := (List.nodup_cons.mp hnd).1
      have hdisj' : ∀ z ∈ l', z ∉ v :: visited := by
        intro z hz
        rw [List.mem_cons]
        rintro (rfl | hzv)
        · exact hvl' hz
        · exact hdisj z (List.mem_cons_of_mem _ hz) hzv
      have hfuel' : l'.length ≤ f := by
        rw [List.length_cons] at hfuel
        omega
      rw [ih hnd' f (v :: visited) (path ++ [v]) hdisj' hfuel']
      rw [List.append_assoc, List.singleton_append]

/-! ### `shortest_path` under negative-cycle freedom -/

theorem bfInit_fin {src x : ν} (hx : (bfInit src).dist x < ⊤) : x = src := by
  by_contra h
  rw [show (bfInit src).dist x = ⊤ from by simp [bfInit, h]] at hx
  exact absurd hx (lt_irrefl _)

theorem bf_pred (nodes : List ν) (edges : List (GEdge ν)) (src : ν)
    (hncw : NoNegClosedWalk edges) :
    BFPred edges (bfInit src).dist (relaxRounds edges (nodes.length - 1) (bfInit src)) :=
  relaxRounds_pred edges (bfInit src).dist hncw
    (fun x y hx hy => (bfInit_fin hx).trans (bfInit_fin hy).symm)
    (nodes.length - 1)
    (bfCore_init edges (bfInit src).dist (fun _ => none) false)
    (bfPred_init edges (bfInit src).dist false)

theorem isPredChain_root_self {p : ν → Option ν} {v : ν} {l : List ν}
    (h : IsPredChain p v l) (hv : p v = none) : l = [v] := by
  cases h with
  | single hv' => rfl
  | cons hpv hch =>
    rw [hv] at hpv
    exact absurd hpv (by simp)

/-- With no negative closed walk, `shortest_path` either reports
"unreachable" (infinite distance at the target) or succeeds, returning the
reversed predecessor chain — which starts at the source — together with
the Bellman-Ford distance and an empty reason. -/
theorem shortest_path_of_ncw (nodes : List ν) (edges : List (GEdge ν)) (src dst : ν)
    (hE : ∀ e ∈ edges, e.u ∈ nodes ∧ e.v ∈ nodes) (hsrc : src ∈ nodes)
    (hncw : NoNegClosedWalk edges) :
    ((bellman_ford nodes edges src).1 dst = ⊤ ∧
      shortest_path nodes edges src dst = ([], ⊤, "unreachable")) ∨
    ∃ l : List ν, IsPredChain (bellman_ford nodes edges src).2.1 dst l ∧
      l.reverse.head? = some src ∧
      shortest_path nodes edges src dst =
        (l.reverse, (bellman_ford nodes edges src).1 dst, "") := by
  have hflag : (bellman_ford nodes edges src).2.2 = false :=
    bellman_ford_no_neg_flag nodes edges src hE hsrc hncw
  set s := relaxRounds edges (nodes.length - 1) (bfInit src) with hs
  have hbf1 : (bellman_ford nodes edges src).1 = s.dist := rfl
  have hbf2 : (bellman_ford nodes edges src).2.1 = s.pred := rfl
  have hcore : BFCore edges (bfInit src).dist s :=
    relaxRounds_core edges (bfInit src).dist (nodes.length - 1)
      (bfCore_init edges (bfInit src).dist (fun _ => none) false)
  have hpred : BFPred edges (bfInit src).dist s := bf_pred nodes edges src hncw
  by_cases hdd : s.dist dst = ⊤
  · left
    refine ⟨by rw [hbf1]; exact hdd, ?_⟩
    simp only [shortest_path]
    rw [hflag]
    simp only [Bool.false_eq_true, if_false]
    rw [hbf1, if_pos hdd]
  · right
    have hfin : s.dist dst < ⊤ := lt_top_iff_ne_top.mpr hdd
    obtain ⟨l, hchain⟩ := reachesRoot_chain (hpred.reaches dst)
    have hlt : ∀ z ∈ l, s.dist z < ⊤ :=
      isPredChain_dist_lt_top edges s.dist hpred.predEdge hchain hfin
    have hmemN : ∀ z ∈ l, z ∈ nodes := by
      intro z hz
      refine dist_lt_top_mem edges (bfInit src).dist nodes hE ?_ hcore (hlt z hz)
      intro x hx
      rw [bfInit_fin hx]
      exact hsrc
    have hnd : l.Nodup := isPredChain_nodup hpred.reaches hchain
    have hlen : l.length ≤ nodes.length := length_le_of_nodup_subset hnd hmemN
    have hrec : reconstruct s.pred (nodes.length + 2) [] [] (some dst) =
        ReconResult.found ([] ++ l) :=
      reconstruct_chain hchain hnd (nodes.length + 2) [] []
        (fun z _ => List.not_mem_nil z) (by omega)
    rw [List.nil_append] at hrec
    obtain ⟨r, hlast, hproot, hrmem⟩ := isPredChain_getLast hchain
    have hrsrc : r = src := bfInit_fin (hpred.predNone r hproot (hlt r hrmem))
    have hhead : l.reverse.head? = some src := by
      rw [List.head?_reverse, hlast, hrsrc]
    refine ⟨l, by rw [hbf2]; exact hchain, hhead, ?_⟩
    have hunf : shortest_path nodes edges src dst =
        (match reconstruct s.pred (nodes.length + 2) [] [] (some dst) with
          | ReconResult.cycleDetected =>
            (([] : List ν), (⊤ : WithTop ℚ), "path reconstruction cycle detected")
          | ReconResult.fuelOut => ([], ⊤, "fuel exhausted")
          | ReconResult.found p =>
            if p.reverse ≠ [] ∧ p.reverse.head? ≠ some src then
              ([], ⊤, "path reconstruction failed")
            else (p.reverse, s.dist dst, "")) := by
      simp only [shortest_path]
      rw [hflag]
      simp only [Bool.false_eq_true, if_false]
      rw [hbf1, if_neg hdd, hbf2]
    rw [hunf, hrec]
    show (if l.reverse ≠ [] ∧ l.reverse.head? ≠ some src then
        (([] : List ν), (⊤ : WithTop ℚ), "path reconstruction failed")
      else (l.reverse, s.dist dst, "")) = (l.reverse, s.dist dst, "")
    rw [if_neg (fun hc => hc.2 hhead)]

/-- The Bellman-Ford distance of the source to itself is `0` when the
graph has no negative closed walk. -/
theorem bf_dist_src (nodes : List ν) (edges : List (GEdge ν)) (src : ν)
    (hncw : NoNegClosedWalk edges) :
    (bellman_ford nodes edges src).1 src = ((0 : ℚ) : WithTop ℚ) := by
  have hbf1 : (bellman_ford nodes edges src).1 =
      (relaxRounds edges (nodes.length - 1) (bfInit src)).dist := rfl
  rw [hbf1]
  have hcore : BFCore edges (bfInit src).dist
      (relaxRounds edges (nodes.length - 1) (bfInit src)) :=
    relaxRounds_core edges (bfInit src).dist (nodes.length - 1)
      (bfCore_init edges (bfInit src).dist (fun _ => none) false)
  have hle : (relaxRounds edges (nodes.length - 1) (bfInit src)).dist src ≤
      ((0 : ℚ) : WithTop ℚ) := by
    have h := hcore.distLe src
    rwa [show (bfInit src).dist src = ((0 : ℚ) : WithTop ℚ) from by simp [bfInit]] at h
  have hfin : (relaxRounds edges (nodes.length - 1) (bfInit src)).dist src < ⊤ :=
    lt_of_le_of_lt hle (WithTop.coe_lt_top 0)
  obtain ⟨x, es, hw, hx, heq⟩ := hcore.walk src hfin
  rw [bfInit_fin hx] at hw heq
  have hW : 0 ≤ walkWeight es := by
    rcases eq_or_ne es [] with rfl | hne
    · simp [walkWeight]
    · exact hncw src es hne hw
  have hge : ((0 : ℚ) : WithTop ℚ) ≤
      (relaxRounds edges (nodes.length - 1) (bfInit src)).dist src := by
    rw [heq, show (bfInit src).dist src = ((0 : ℚ) : WithTop ℚ) from by simp [bfInit],
      ← WithTop.coe_add]
    exact WithTop.coe_le_coe.mpr (by linarith)
  exact le_antisymm hle hge

/-- `shortest_path` from a node to itself, absent negative closed walks:
the one-node path at distance `0`. -/
theorem shortest_path_self (nodes : List ν) (edges : List (GEdge ν)) (src : ν)
    (hE : ∀ e ∈ edges, e.u ∈ nodes ∧ e.v ∈ nodes) (hsrc : src ∈ nodes)
    (hncw : NoNegClosedWalk edges) :
    shortest_path nodes edges src src = ([src], ((0 : ℚ) : WithTop ℚ), "") := by
  rcases shortest_path_of_ncw nodes edges src src hE hsrc hncw with
    ⟨hdd, _⟩ | ⟨l, hchain, _, heq⟩
  · rw [bf_dist_src nodes edges src hncw] at hdd
    exact absurd hdd (by simp)
  · have hproot : (bellman_ford nodes edges src).2.1 src = none :=
      (bf_pred nodes edges src hncw).rootsInit src (by simp [bfInit])
    rw [isPredChain_root_self hchain hproot] at heq
    rw [heq, List.reverse_singleton, bf_dist_src nodes edges src hncw]

/-- C8: once the global negative-cycle pre-check has returned `false`,
`_shortest_path` (between any two nodes of the list) cannot report a
negative cycle nor any reconstruction failure: it either succeeds (empty
reason) or reports exactly "unreachable". -/
theorem shortest_path_safe_reasons (nodes : List ν) (edges : List (GEdge ν)) (src dst : ν)
    (hE : ∀ e ∈ edges, e.u ∈ nodes ∧ e.v ∈ nodes) (hsrc : src ∈ nodes)
    (hdst : dst ∈ nodes)
    (hdet : detect_any_negative_cycle nodes edges = false) :
    (shortest_path nodes edges src dst).2.2 = "" ∨
    (shortest_path nodes edges src dst).2.2 = "unreachable" := by
  have hncw : NoNegClosedWalk edges := by
    intro x es hne hw
    by_contra hneg
    rw [not_le] at hneg
    have h := detect_eq_true_of_neg_walk nodes edges hE x es hne hw hneg
    rw [hdet] at h
    exact Bool.false_ne_true h
  rcases shortest_path_of_ncw nodes edges src dst hE hsrc hncw with
    ⟨_, heq⟩ | ⟨l, _, _, heq⟩
  · right
    rw [heq]
  · left
    rw [heq]

theorem shortest_path_safe_reasons_witness :
    ((∀ e ∈ ([⟨("A"), ("B"), 1⟩, ⟨("B"), ("C"), 2⟩, ⟨("C"), ("A"), 3⟩] : List (GEdge String)),
        e.u ∈ (["A", "B", "C"] : List String) ∧ e.v ∈ (["A", "B", "C"] : List String)) ∧
      ("A" : String) ∈ (["A", "B", "C"] : List String) ∧
      ("C" : String) ∈ (["A", "B", "C"] : List String) ∧
      detect_any_negative_cycle (["A", "B", "C"] : List String)
        [⟨("A"), ("B"), 1⟩, ⟨("B"), ("C"), 2⟩, ⟨("C"), ("A"), 3⟩] = false) ∧
    ((shortest_path (["A", "B", "C"] : List String)
        [⟨("A"), ("B"), 1⟩, ⟨("B"), ("C"), 2⟩, ⟨("C"), ("A"), 3⟩] ("A") ("C")).2.2 = "" ∨
      (shortest_path (["A", "B", "C"] : List String)
        [⟨("A"), ("B"), 1⟩, ⟨("B"), ("C"), 2⟩, ⟨("C"), ("A"), 3⟩] ("A") ("C")).2.2 =
        "unreachable") := by
  have hdet : detect_any_negative_cycle (["A", "B", "C"] : List String)
      [⟨("A"), ("B"), 1⟩, ⟨("B"), ("C"), 2⟩, ⟨("C"), ("A"), 3⟩] = false :=
    detect_eq_false_of_ncw _ _ (by decide)
      (noNegClosedWalk_of_nonneg _ (by decide))
  exact ⟨⟨by decide, by decide, by decide, hdet⟩,
    shortest_path_safe_reasons (["A", "B", "C"] : List String)
      [⟨("A"), ("B"), 1⟩, ⟨("B"), ("C"), 2⟩, ⟨("C"), ("A"), 3⟩] ("A") ("C")
      (by decide) (by decide) (by decide) hdet⟩

/-- C10: on a well-formed graph with no negative closed walk, the
degenerate plan through a single registered state `A` succeeds with the
one-node path `[A]` and cost `0`. -/
theorem plan_cycle_degenerate {σ ε : Type} [DecidableEq σ] [DecidableEq ε]
    (f : FSM σ ε) (A : σ)
    (hwf : ∀ t ∈ f.transitions, t.src ∈ f.states ∧ t.dst ∈ f.states)
    (hA : A ∈ f.states) (hncw : NoNegClosedWalk (edges_from_fsm f)) :
    plan_cycle_ABC f A A A = ⟨[A], ((0 : ℚ) : WithTop ℚ), true, "ok"⟩ := by
  have hE : ∀ e ∈ edges_from_fsm f, e.u ∈ f.states ∧ e.v ∈ f.states := by
    intro e he
    rcases List.mem_map.mp he with ⟨t, ht, rfl⟩
    exact hwf t ht
  have hdet : detect_any_negative_cycle f.states (edges_from_fsm f) = false :=
    detect_eq_false_of_ncw f.states (edges_from_fsm f) hE hncw
  have hsp : shortest_path f.states (edges_from_fsm f) A A =
      ([A], ((0 : ℚ) : WithTop ℚ), "") :=
    shortest_path_self f.states (edges_from_fsm f) A hE hA hncw
  have hm : ¬(A ∉ f.states ∨ A ∉ f.states ∨ A ∉ f.states) := by
    push_neg
    exact ⟨hA, hA, hA⟩
  simp only [plan_cycle_ABC]
  rw [if_neg hm]
  simp only [Bool.false_eq_true, if_false]
  rw [hdet]
  simp only [Bool.false_eq_true, if_false]
  rw [hsp]
  simp

theorem plan_cycle_degenerate_witness :
    ((∀ t ∈ fsmC2.transitions, t.src ∈ fsmC2.states ∧ t.dst ∈ fsmC2.states) ∧
      ("A" : String) ∈ fsmC2.states ∧ NoNegClosedWalk (edges_from_fsm fsmC2)) ∧
    plan_cycle_ABC fsmC2 ("A") ("A") ("A") =
      ⟨["A"], ((0 : ℚ) : WithTop ℚ), true, "ok"⟩ := by
  have hncw : NoNegClosedWalk (edges_from_fsm fsmC2) :=
    noNegClosedWalk_of_nonneg _ (by decide)
  exact ⟨⟨by decide, by decide, hncw⟩,
    plan_cycle_degenerate fsmC2 ("A") (by decide) (by decide) hncw⟩

end QTT
